import Mathlib

/-!
Verification of the indirection-cell doubly-linked list ("mutable chain")
implemented by `MutableList<T>` in `mutable_chain.cpp`.

The C++ data model is embedded shallowly as follows.

* A `Ref<Node>` object (`struct Ref { shared_ptr<Node> ptr; }`) is an
  indirection cell: a single-slot mutable holder of one node pointer.  Cells
  are heap objects with identity, so the embedding gives every cell a numeric
  id and keeps a store `cells : cell id -> node id` for the cell contents.
  Writing a cell in place (`ref->ptr = n`) updates the store at the cell's id;
  the id (the cell's identity) never changes.
* A `ListNode<T>` owns two `shared_ptr<Ref>` fields `next` / `prev` and a
  value.  The embedding gives every node a numeric id and a record
  `Node` with `next prev : Option Nat` (the cell ids currently held by the
  node's fields; `none` is a null `shared_ptr`, the state of a sentinel field
  that was never linked) and `value : α` (sentinels hold the
  default-constructed value, `Inhabited.default`).
* The container `MutableList` is a `Chain`: the two stores, the ids of the
  `head_`/`tail_` sentinels, allocation counters for fresh node and cell ids
  (`make_shared` always yields a brand-new object), and the `size_` counter.
* Dereferencing a possibly-null `shared_ptr` is the only failure mode of the
  C++ code (it has no error checks); fallible operations therefore return
  `Except Err` where `Err.nullDeref` models a null dereference (undefined
  behavior in the C++).  `Err.invalidOperation` / `Err.invalidState` are the
  error kinds named by the specification's error taxonomy; the code itself
  never produces them, which is exactly what the error-handling claims are
  about.
* Both stores are association lists where an update prepends; lookups read
  the newest binding.  Erased nodes stay in the store: in the C++ an erased
  node is kept alive by any `shared_ptr` still referencing it (for example an
  iterator), and its fields are never cleared.

Iterators hold a `shared_ptr` to their current node; the embedding represents
an iterator by its current node id.  Iterator equality is pointer equality,
so `it != list.end()` is `cur ≠ tailId`.
-/

set_option autoImplicit false

namespace MChain

variable {α : Type} {β : Type} {γ : Type}

/-- Error kinds.  `nullDeref` models dereferencing a null `shared_ptr`
(the only way the C++ code can go wrong); `invalidOperation` and
`invalidState` are the kinds named by the specification's error taxonomy
(erasing a sentinel resp. dereferencing a sentinel), which the code would
have to signal explicitly. -/
inductive Err where
  | nullDeref
  | invalidOperation
  | invalidState
deriving DecidableEq, Repr

/-- Dereference a possibly-null pointer: apply the continuation to the
pointee, or fail as a null dereference. -/
def deref : Option β → (β → Except Err γ) → Except Err γ
  | none, _ => .error .nullDeref
  | some b, f => f b


/-- Lookup in an association list keyed by numeric ids (newest binding wins). -/
def lookupA : List (Nat × β) → Nat → Option β
  | [], _ => none
  | (k, v) :: m, k' => if k' = k then some v else lookupA m k'

/-- In-place store update: prepend the new binding, which shadows the old one. -/
def upd (m : List (Nat × β)) (k : Nat) (v : β) : List (Nat × β) := (k, v) :: m


/-- Embedding of `ListNode<T>`: the two link-cell fields (cell ids; `none` is
a null `shared_ptr`) and the stored value. -/
structure Node (α : Type) where
  next : Option Nat
  prev : Option Nat
  value : α
deriving DecidableEq, Repr

/-- Embedding of `MutableList<T>`: node and cell stores, sentinel ids,
fresh-id counters for `make_shared` allocations, and `size_`. -/
structure Chain (α : Type) where
  nodes : List (Nat × Node α)
  cells : List (Nat × Nat)
  headId : Nat
  tailId : Nat
  freshNode : Nat
  freshCell : Nat
  size : Nat
deriving DecidableEq, Repr

/-- Result of the default constructor `MutableList()`: two sentinel nodes
(ids 0 = `head_`, 1 = `tail_`, default-constructed values) joined by
`link(head_, tail_)`, which allocates cell 0 = `head_->next` (targeting
`tail_`) and cell 1 = `tail_->prev` (targeting `head_`).  The sentinels'
other fields stay null. -/
def emptyChain [Inhabited α] : Chain α :=
  { nodes := [(1, ⟨none, some 1, default⟩), (0, ⟨some 0, none, default⟩)],
    cells := [(1, 0), (0, 1)],
    headId := 0, tailId := 1,
    freshNode := 2, freshCell := 2, size := 0 }

/-- Embedding of `MutableList::link(a, b)`: allocate a brand-new forward cell
on `a` targeting `b` and a brand-new backward cell on `b` targeting `a`,
replacing the two field pointers outright. -/
def linkOp (ch : Chain α) (a b : Nat) : Except Err (Chain α) :=
  deref (lookupA ch.nodes a) fun na =>
  let nodes1 := upd ch.nodes a { na with next := some ch.freshCell }
  deref (lookupA nodes1 b) fun nb =>
  .ok { ch with
        nodes := upd nodes1 b { nb with prev := some (ch.freshCell + 1) },
        cells := upd (upd ch.cells ch.freshCell b) (ch.freshCell + 1) a,
        freshCell := ch.freshCell + 2 }

/-- Embedding of `emplace_back` / `push_back`: allocate a fresh node, resolve
`last = tail_->prev->ptr`, then `link(last, node); link(node, tail_)` and
increment `size_`. -/
def push_back (ch : Chain α) (v : α) : Except Err (Chain α) :=
  let n := ch.freshNode
  let ch1 : Chain α :=
    { ch with nodes := upd ch.nodes n ⟨none, none, v⟩, freshNode := n + 1 }
  deref (lookupA ch1.nodes ch1.tailId) fun tn =>
  deref tn.prev fun tpc =>
  deref (lookupA ch1.cells tpc) fun last =>
  match linkOp ch1 last n with
  | .error e => .error e
  | .ok ch2 =>
    match linkOp ch2 n ch1.tailId with
    | .error e => .error e
    | .ok ch3 => .ok { ch3 with size := ch3.size + 1 }

/-- Embedding of `emplace_front` / `push_front`: allocate a fresh node,
resolve `first = head_->next->ptr`, then `link(head_, node); link(node,
first)` and increment `size_`. -/
def push_front (ch : Chain α) (v : α) : Except Err (Chain α) :=
  let n := ch.freshNode
  let ch1 : Chain α :=
    { ch with nodes := upd ch.nodes n ⟨none, none, v⟩, freshNode := n + 1 }
  deref (lookupA ch1.nodes ch1.headId) fun hn =>
  deref hn.next fun hnc =>
  deref (lookupA ch1.cells hnc) fun first =>
  match linkOp ch1 ch1.headId n with
  | .error e => .error e
  | .ok ch2 =>
    match linkOp ch2 n first with
    | .error e => .error e
    | .ok ch3 => .ok { ch3 with size := ch3.size + 1 }

/-- Embedding of `erase(iterator pos)`: resolve `pred = node->prev->ptr` and
`succ = node->next->ptr`, then perform the two in-place cell-content writes
`pred->next->ptr = succ` and `succ->prev->ptr = pred`, decrement `size_`, and
return an iterator at `succ`.  There is no sentinel check. -/
def erase (ch : Chain α) (cur : Nat) : Except Err (Chain α × Nat) :=
  deref (lookupA ch.nodes cur) fun nd =>
  deref nd.prev fun pc =>
  deref (lookupA ch.cells pc) fun pred =>
  deref nd.next fun nc =>
  deref (lookupA ch.cells nc) fun succ =>
  deref (lookupA ch.nodes pred) fun pn =>
  deref pn.next fun pnc =>
  let cells1 := upd ch.cells pnc succ
  deref (lookupA ch.nodes succ) fun sn =>
  deref sn.prev fun snc =>
  .ok ({ ch with cells := upd cells1 snc pred, size := ch.size - 1 }, succ)

/-- Embedding of iterator `operator++`: `current_ = current_->next->ptr`. -/
def iterNext (ch : Chain α) (cur : Nat) : Except Err Nat :=
  deref (lookupA ch.nodes cur) fun nd =>
  deref nd.next fun c =>
  deref (lookupA ch.cells c) fun nxt => .ok nxt

/-- Embedding of iterator `operator--`: `current_ = current_->prev->ptr`. -/
def iterPrev (ch : Chain α) (cur : Nat) : Except Err Nat :=
  deref (lookupA ch.nodes cur) fun nd =>
  deref nd.prev fun c =>
  deref (lookupA ch.cells c) fun prv => .ok prv

/-- Embedding of iterator `operator*`: `current_->value`.  There is no
sentinel check; on a sentinel this reads the default-constructed value. -/
def iterDeref (ch : Chain α) (cur : Nat) : Except Err α :=
  deref (lookupA ch.nodes cur) fun nd => .ok nd.value

/-- Embedding of `front()`: `head_->next->ptr->value`.  No emptiness check. -/
def front (ch : Chain α) : Except Err α :=
  deref (lookupA ch.nodes ch.headId) fun hn =>
  deref hn.next fun c =>
  deref (lookupA ch.cells c) fun first =>
  deref (lookupA ch.nodes first) fun nd => .ok nd.value

/-- Embedding of `back()`: `tail_->prev->ptr->value`.  No emptiness check. -/
def back (ch : Chain α) : Except Err α :=
  deref (lookupA ch.nodes ch.tailId) fun tn =>
  deref tn.prev fun c =>
  deref (lookupA ch.cells c) fun last =>
  deref (lookupA ch.nodes last) fun nd => .ok nd.value

/-- Embedding of `pop_back()`: `if (!empty()) erase(iterator(tail_->prev->ptr))`. -/
def pop_back (ch : Chain α) : Except Err (Chain α) :=
  if ch.size = 0 then .ok ch else
  deref (lookupA ch.nodes ch.tailId) fun tn =>
  deref tn.prev fun tpc =>
  deref (lookupA ch.cells tpc) fun last =>
  match erase ch last with
  | .error e => .error e
  | .ok (ch', _) => .ok ch'

/-- Embedding of `pop_front()`: `if (!empty()) erase(begin())`, where
`begin()` is `iterator(head_->next->ptr)`. -/
def pop_front (ch : Chain α) : Except Err (Chain α) :=
  if ch.size = 0 then .ok ch else
  match iterNext ch ch.headId with
  | .error e => .error e
  | .ok first =>
    match erase ch first with
    | .error e => .error e
    | .ok (ch', _) => .ok ch'

/-- Current cell id held by one of a node's two link fields (`s = true` for
`next`, `s = false` for `prev`).  Each cell is created for exactly one such
field slot, so these ids identify the cell objects of the C++ program. -/
def slotOf (ch : Chain α) (k : Nat) (s : Bool) : Option Nat :=
  match lookupA ch.nodes k with
  | none => none
  | some nd => if s then nd.next else nd.prev

/-- Forward traversal by repeated `operator++`, collecting the visited node
ids until the tail sentinel (`it != end()`) is reached; `none` on a null
dereference or when the fuel runs out (a loop that would not terminate). -/
def fwdFrom (ch : Chain α) : Nat → Nat → Option (List Nat)
  | 0, _ => none
  | fuel + 1, cur =>
    if cur = ch.tailId then some [] else
      match iterNext ch cur with
      | .error _ => none
      | .ok nxt =>
        match fwdFrom ch fuel nxt with
        | none => none
        | some rest => some (cur :: rest)

/-- Backward traversal by repeated `operator--` from a start node, collecting
ids until the head sentinel is reached. -/
def bwdFrom (ch : Chain α) : Nat → Nat → Option (List Nat)
  | 0, _ => none
  | fuel + 1, cur =>
    if cur = ch.headId then some [] else
      match iterPrev ch cur with
      | .error _ => none
      | .ok prv =>
        match bwdFrom ch fuel prv with
        | none => none
        | some rest => some (cur :: rest)

/-- Full forward traversal: start at `begin() = head_->next->ptr` and walk to
the tail sentinel. -/
def fwdIds (ch : Chain α) : Option (List Nat) :=
  match iterNext ch ch.headId with
  | .error _ => none
  | .ok first => fwdFrom ch (ch.size + 1) first

/-- Full backward traversal: start at `tail_->prev->ptr` (the last element,
where reverse iteration begins) and walk to the head sentinel. -/
def bwdIds (ch : Chain α) : Option (List Nat) :=
  match iterPrev ch ch.tailId with
  | .error _ => none
  | .ok first => bwdFrom ch (ch.size + 1) first

/-- Values stored at a list of node ids. -/
def valsOf (ch : Chain α) : List Nat → Option (List α)
  | [] => some []
  | i :: is =>
    match lookupA ch.nodes i with
    | none => none
    | some nd =>
      match valsOf ch is with
      | none => none
      | some rest => some (nd.value :: rest)

/-- Forward value sequence of the chain (the `toArray()` observation). -/
def fwdVals (ch : Chain α) : Option (List α) :=
  match fwdIds ch with
  | none => none
  | some l => valsOf ch l

/-- Backward value sequence of the chain (reverse traversal). -/
def bwdVals (ch : Chain α) : Option (List α) :=
  match bwdIds ch with
  | none => none
  | some l => valsOf ch l

/-- A node id is an attached ordinary node iff the forward traversal from the
head sentinel visits it. -/
def attachedB (ch : Chain α) (n : Nat) : Bool :=
  match fwdIds ch with
  | none => false
  | some l => l.contains n

/-- Chain states reachable from the empty chain by `push_back`, `push_front`
and `erase` on an attached ordinary node. -/
inductive Reachable [Inhabited α] : Chain α → Prop where
  | empty : Reachable emptyChain
  | pushB {ch ch' : Chain α} {v : α} :
      Reachable ch → push_back ch v = .ok ch' → Reachable ch'
  | pushF {ch ch' : Chain α} {v : α} :
      Reachable ch → push_front ch v = .ok ch' → Reachable ch'
  | eraseS {ch ch' : Chain α} {n s : Nat} :
      Reachable ch → attachedB ch n = true → erase ch n = .ok (ch', s) →
      Reachable ch'

/-! ### Structural invariant -/

/-- Two nodes are adjacent when each one's link cell dereferences to the
other: `x`'s forward cell reaches `y` and `y`'s backward cell reaches `x`. -/
def adjR (ch : Chain α) (x y : Nat) : Prop :=
  iterNext ch x = .ok y ∧ iterPrev ch y = .ok x

/-- `Linked ch x l` says that starting at `x`, the chain continues through
exactly the ordinary nodes `l` (in order) and then reaches the tail sentinel,
with every hop doubly linked. -/
inductive Linked (ch : Chain α) : Nat → List Nat → Prop where
  | nil {x : Nat} : adjR ch x ch.tailId → Linked ch x []
  | cons {x y : Nat} {ys : List Nat} :
      adjR ch x y → Linked ch y ys → Linked ch x (y :: ys)

/-- Well-formedness of a chain whose ordinary nodes, in forward order, are
`L`. -/
structure Inv [Inhabited α] (ch : Chain α) (L : List Nat) : Prop where
  linked : Linked ch ch.headId L
  nodup : (ch.headId :: L ++ [ch.tailId]).Nodup
  sizeEq : ch.size = L.length
  headNode : ∃ nd : Node α, lookupA ch.nodes ch.headId = some nd ∧
      nd.prev = none ∧ nd.value = default
  tailNode : ∃ nd : Node α, lookupA ch.nodes ch.tailId = some nd ∧
      nd.next = none ∧ nd.value = default
  slotInj : ∀ k1 s1 k2 s2 c, slotOf ch k1 s1 = some c →
      slotOf ch k2 s2 = some c → k1 = k2 ∧ s1 = s2
  slotLt : ∀ k s c, slotOf ch k s = some c → c < ch.freshCell
  nodeKeyLt : ∀ k, (lookupA ch.nodes k).isSome → k < ch.freshNode
  cellKeyLt : ∀ c, (lookupA ch.cells c).isSome → c < ch.freshCell

/-! ### Derived operations and demo program -/

/-- First element of a list, with a fallback. -/
def firstD : List Nat → Nat → Nat
  | [], d => d
  | a :: _, _ => a

/-- Last element of a list, with a fallback. -/
def lastD : List Nat → Nat → Nat
  | [], d => d
  | a :: l, _ => lastD l a

/-- The delete-all-while-iterating loop: visit the current node; if it is not
the tail sentinel, erase it and continue at the iterator returned by
`erase`. -/
def deleteAllLoop : Nat → Chain α → Nat → Except Err (Chain α)
  | 0, _, _ => .error .nullDeref
  | fuel + 1, ch, it =>
    if it = ch.tailId then .ok ch
    else
      match erase ch it with
      | .error e => .error e
      | .ok (ch', it') => deleteAllLoop fuel ch' it'

/-- Erase every element during a single forward traversal starting at
`begin()`. -/
def deleteAll (ch : Chain α) : Except Err (Chain α) :=
  match iterNext ch ch.headId with
  | .error e => .error e
  | .ok first => deleteAllLoop (ch.size + 1) ch first

/-- Building a chain from an initial sequence of values, as the C++
initializer-list constructor does: start from the default-constructed list
and `push_back` each value. -/
def pushD (ch : Chain α) (v : α) : Chain α :=
  match push_back ch v with
  | .ok ch' => ch'
  | .error _ => ch

def chainOf [Inhabited α] (l : List α) : Chain α :=
  l.foldl pushD emptyChain

/-- The demonstration loop of `main` in `mutable_chain.cpp`: forward-iterate
with `it`; at each step compare `*it` with `"data1!"`; on a match call
`list.erase(it)` (the returned iterator is discarded by the demo) and then
advance the original iterator with `++it`; otherwise just advance.  The
values read from `*it` are accumulated in visiting order. -/
def demoLoop : Nat → Chain String → Nat → List String →
    Except Err (Chain String × List String)
  | 0, _, _, _ => .error .nullDeref
  | fuel + 1, ch, it, acc =>
    if it = ch.tailId then .ok (ch, acc)
    else
      match iterDeref ch it with
      | .error e => .error e
      | .ok v =>
        if v = "data1!" then
          match erase ch it with
          | .error e => .error e
          | .ok (ch', _) =>
            match iterNext ch' it with
            | .error e => .error e
            | .ok it' => demoLoop fuel ch' it' (acc ++ [v])
        else
          match iterNext ch it with
          | .error e => .error e
          | .ok it' => demoLoop fuel ch it' (acc ++ [v])

/-- The demo chain `MutableList<std::string> list{"data1!", "data2!",
"data3!"}`. -/
def demoChain : Chain String := chainOf ["data1!", "data2!", "data3!"]

/-- Run of the demo's first loop, starting at `begin()`. -/
def demoRun : Except Err (Chain String × List String) :=
  match iterNext demoChain demoChain.headId with
  | .error e => .error e
  | .ok first => demoLoop 10 demoChain first []

/-- Post-condition of C2: erasing the attached ordinary node `n` resolves its
predecessor and successor, performs exactly two cell-content writes (the
predecessor's forward cell now targets the successor, the successor's
backward cell now targets the predecessor, and no other cell changes),
leaves the erased node's own two cells untouched (still targeting its former
neighbors), decrements the size by one, and returns a cursor at the
successor. -/
def C2Post {α : Type} (ch : Chain α) (n : Nat) : Prop :=
  ∃ ch' pred succ pnc snc nc pc,
    erase ch n = .ok (ch', succ) ∧
    iterPrev ch n = .ok pred ∧ iterNext ch n = .ok succ ∧
    slotOf ch pred true = some pnc ∧ slotOf ch succ false = some snc ∧
    lookupA ch.cells pnc = some n ∧ lookupA ch.cells snc = some n ∧
    lookupA ch'.cells pnc = some succ ∧ lookupA ch'.cells snc = some pred ∧
    pnc ≠ snc ∧ n ≠ succ ∧ n ≠ pred ∧
    (∀ c, c ≠ pnc → c ≠ snc → lookupA ch'.cells c = lookupA ch.cells c) ∧
    ch'.nodes = ch.nodes ∧
    slotOf ch n true = some nc ∧ slotOf ch n false = some pc ∧
    slotOf ch' n true = some nc ∧ slotOf ch' n false = some pc ∧
    lookupA ch'.cells nc = some succ ∧ lookupA ch'.cells pc = some pred ∧
    ch'.size + 1 = ch.size

/-- Post-condition of C4: a second cursor parked at the immediate
predecessor `p` of the node `n` that gets erased advances, after the
erasure, directly to the erased node's former successor, and the rest of its
traversal never visits `n`. -/
def C4Post {α : Type} (ch : Chain α) (n p : Nat) : Prop :=
  ∃ ch' s, erase ch n = .ok (ch', s) ∧ iterNext ch n = .ok s ∧ s ≠ n ∧
    iterNext ch' p = .ok s ∧
    ∃ l, fwdFrom ch' (ch'.size + 1) s = some l ∧ n ∉ l

/-- Post-condition of C9: `push_back` does not write the former last node's
existing forward cell in place; it installs a brand-new forward cell (a new
identity) targeting the new node, while the old cell object keeps its old
content (the tail sentinel) — so a holder of the old cell no longer observes
the updated chain.  Symmetrically the tail sentinel gets a brand-new
backward cell. -/
def C9Post {α : Type} (ch : Chain α) (v : α) : Prop :=
  ∃ last oc ch' nc tc tc',
    iterPrev ch ch.tailId = .ok last ∧
    slotOf ch last true = some oc ∧
    lookupA ch.cells oc = some ch.tailId ∧
    push_back ch v = .ok ch' ∧
    slotOf ch' last true = some nc ∧ nc ≠ oc ∧
    lookupA ch'.cells nc = some ch.freshNode ∧
    lookupA ch'.cells oc = some ch.tailId ∧
    ch.tailId ≠ ch.freshNode ∧
    slotOf ch ch.tailId false = some tc ∧
    slotOf ch' ch.tailId false = some tc' ∧ tc' ≠ tc

/-! ### Small equations for the helpers -/

@[simp] theorem deref_some (b : β) (f : β → Except Err γ) : deref (some b) f = f b := rfl

@[simp] theorem deref_none (f : β → Except Err γ) :
    deref (none : Option β) f = .error .nullDeref := rfl

@[simp] theorem lookupA_nil (k : Nat) : lookupA ([] : List (Nat × β)) k = none := rfl

@[simp] theorem lookupA_upd (m : List (Nat × β)) (k k' : Nat) (v : β) :
    lookupA (upd m k v) k' = if k' = k then some v else lookupA m k' := rfl

/-! ### Basic inversion lemmas -/

theorem slotOf_true_iff {ch : Chain α} {k c : Nat} :
    slotOf ch k true = some c ↔
      ∃ nd, lookupA ch.nodes k = some nd ∧ nd.next = some c := by
  unfold slotOf
  cases lookupA ch.nodes k with
  | none => simp
  | some nd => simp

theorem slotOf_false_iff {ch : Chain α} {k c : Nat} :
    slotOf ch k false = some c ↔
      ∃ nd, lookupA ch.nodes k = some nd ∧ nd.prev = some c := by
  unfold slotOf
  cases lookupA ch.nodes k with
  | none => simp
  | some nd => simp

theorem iterNext_ok_iff {ch : Chain α} {x y : Nat} :
    iterNext ch x = .ok y ↔
      ∃ c, slotOf ch x true = some c ∧ lookupA ch.cells c = some y := by
  unfold iterNext slotOf
  cases lookupA ch.nodes x with
  | none => simp
  | some nd =>
    cases h2 : nd.next with
    | none => simp [h2]
    | some c =>
      cases h3 : lookupA ch.cells c with
      | none => simp [h2, h3]
      | some y' => simp [h2, h3, eq_comm]

theorem iterPrev_ok_iff {ch : Chain α} {x y : Nat} :
    iterPrev ch x = .ok y ↔
      ∃ c, slotOf ch x false = some c ∧ lookupA ch.cells c = some y := by
  unfold iterPrev slotOf
  cases lookupA ch.nodes x with
  | none => simp
  | some nd =>
    cases h2 : nd.prev with
    | none => simp [h2]
    | some c =>
      cases h3 : lookupA ch.cells c with
      | none => simp [h2, h3]
      | some y' => simp [h2, h3, eq_comm]

theorem iterNext_of {ch : Chain α} {x y c : Nat}
    (h1 : slotOf ch x true = some c) (h2 : lookupA ch.cells c = some y) :
    iterNext ch x = .ok y :=
  iterNext_ok_iff.mpr ⟨c, h1, h2⟩

theorem iterPrev_of {ch : Chain α} {x y c : Nat}
    (h1 : slotOf ch x false = some c) (h2 : lookupA ch.cells c = some y) :
    iterPrev ch x = .ok y :=
  iterPrev_ok_iff.mpr ⟨c, h1, h2⟩

/-! ### Lemmas about `Linked` spines -/


@[simp] theorem firstD_nil (d : Nat) : firstD [] d = d := rfl

@[simp] theorem firstD_cons (a d : Nat) (l : List Nat) : firstD (a :: l) d = a := rfl

@[simp] theorem lastD_nil (d : Nat) : lastD [] d = d := rfl

@[simp] theorem lastD_cons (a d : Nat) (l : List Nat) :
    lastD (a :: l) d = lastD l a := rfl

theorem mem_lastD : ∀ (l : List Nat) (d : Nat), lastD l d ∈ d :: l := by
  intro l
  induction l with
  | nil => intro d; simp
  | cons a t ih =>
    intro d
    rcases List.mem_cons.mp (ih a) with h | h
    · simp [h]
    · exact List.mem_cons_of_mem _ (List.mem_cons_of_mem _ h)

theorem mem_firstD {l : List Nat} {d : Nat} : firstD l d ∈ d :: l := by
  cases l with
  | nil => simp
  | cons a t => simp

/-- The forward step out of the start of a linked segment reaches the first
listed node (or the tail sentinel when the segment is empty). -/
theorem linked_first {ch : Chain α} {x : Nat} {l : List Nat}
    (h : Linked ch x l) : adjR ch x (firstD l ch.tailId) := by
  cases h with
  | nil h => simpa using h
  | cons h _ => simpa using h

/-- The backward step out of the tail sentinel reaches the last node of the
segment (or its start when the segment is empty). -/
theorem linked_last {ch : Chain α} {x : Nat} {l : List Nat}
    (h : Linked ch x l) : adjR ch (lastD l x) ch.tailId := by
  induction h with
  | nil h => simpa using h
  | cons h htail ih => simpa using ih

/-- Splitting a linked segment around a distinguished member `n` yields its
attached predecessor and successor. -/
theorem linked_mid {ch : Chain α} {n : Nat} {l2 : List Nat} :
    ∀ {x : Nat} {l1 : List Nat}, Linked ch x (l1 ++ n :: l2) →
      adjR ch (lastD l1 x) n ∧ adjR ch n (firstD l2 ch.tailId) := by
  intro x l1
  induction l1 generalizing x with
  | nil =>
    intro h
    cases h with
    | cons h htail => exact ⟨by simpa using h, linked_first htail⟩
  | cons p l1' ih =>
    intro h
    cases h with
    | cons h htail =>
      rcases ih htail with ⟨h1, h2⟩
      exact ⟨by simpa using h1, h2⟩

/-- A linked segment continues as a linked segment from any cut point. -/
theorem linked_suffix {ch : Chain α} {l2 : List Nat} :
    ∀ {x : Nat} {l1 : List Nat}, Linked ch x (l1 ++ l2) →
      Linked ch (lastD l1 x) l2 := by
  intro x l1
  induction l1 generalizing x with
  | nil => intro h; simpa using h
  | cons p l1' ih =>
    intro h
    cases h with
    | cons h htail => simpa using ih htail

/-- Every node on a linked segment (including the tail sentinel) is present
in the node store. -/
theorem linked_nodes_isSome {ch : Chain α} {x : Nat} {l : List Nat}
    (h : Linked ch x l) :
    ∀ u ∈ x :: l ++ [ch.tailId], (lookupA ch.nodes u).isSome := by
  induction h with
  | nil h =>
    intro u hu
    rcases h with ⟨h1, h2⟩
    rcases iterNext_ok_iff.mp h1 with ⟨c, hc, _⟩
    rcases iterPrev_ok_iff.mp h2 with ⟨c', hc', _⟩
    rcases slotOf_true_iff.mp hc with ⟨nd, hnd, _⟩
    rcases slotOf_false_iff.mp hc' with ⟨nd', hnd', _⟩
    rcases List.mem_cons.mp hu with rfl | hu
    · simp [hnd]
    · rcases List.mem_cons.mp hu with rfl | hu
      · simp [hnd']
      · exact absurd hu (List.not_mem_nil u)
  | cons h htail ih =>
    intro u hu
    rcases List.mem_cons.mp hu with rfl | hu
    · rcases h with ⟨h1, _⟩
      rcases iterNext_ok_iff.mp h1 with ⟨c, hc, _⟩
      rcases slotOf_true_iff.mp hc with ⟨nd, hnd, _⟩
      simp [hnd]
    · exact ih u hu

/-- A linked segment survives a state change that preserves the link slots of
its members and the contents of the cells those slots designate. -/
theorem linked_of_agree {ch ch' : Chain α} {x : Nat} {l : List Nat}
    (h : Linked ch x l) (ht : ch'.tailId = ch.tailId)
    (hnext : ∀ u ∈ x :: l, slotOf ch' u true = slotOf ch u true)
    (hprev : ∀ u ∈ l ++ [ch.tailId], slotOf ch' u false = slotOf ch u false)
    (hcn : ∀ u ∈ x :: l, ∀ c, slotOf ch u true = some c →
      lookupA ch'.cells c = lookupA ch.cells c)
    (hcp : ∀ u ∈ l ++ [ch.tailId], ∀ c, slotOf ch u false = some c →
      lookupA ch'.cells c = lookupA ch.cells c) :
    Linked ch' x l := by
  induction h with
  | nil h =>
    rcases h with ⟨h1, h2⟩
    rcases iterNext_ok_iff.mp h1 with ⟨c, hc, hcc⟩
    rcases iterPrev_ok_iff.mp h2 with ⟨c', hc', hcc'⟩
    refine Linked.nil ⟨?_, ?_⟩
    · rw [ht]
      exact iterNext_of (by rw [hnext _ (by simp)]; exact hc)
        (by rw [hcn _ (by simp) c hc]; exact hcc)
    · rw [ht]
      exact iterPrev_of (by rw [hprev _ (by simp)]; exact hc')
        (by rw [hcp _ (by simp) c' hc']; exact hcc')
  | cons h htail ih =>
    rename_i x' y ys
    rcases h with ⟨h1, h2⟩
    rcases iterNext_ok_iff.mp h1 with ⟨c, hc, hcc⟩
    rcases iterPrev_ok_iff.mp h2 with ⟨c', hc', hcc'⟩
    refine Linked.cons ⟨?_, ?_⟩ ?_
    · exact iterNext_of (by rw [hnext _ (by simp)]; exact hc)
        (by rw [hcn _ (by simp) c hc]; exact hcc)
    · exact iterPrev_of (by rw [hprev _ (by simp)]; exact hc')
        (by rw [hcp _ (by simp) c' hc']; exact hcc')
    · exact ih
        (fun u hu => hnext u (List.mem_cons_of_mem _ hu))
        (fun u hu => hprev u (by
          simp only [List.cons_append, List.mem_cons]; right; exact hu))
        (fun u hu => hcn u (List.mem_cons_of_mem _ hu))
        (fun u hu => hcp u (by
          simp only [List.cons_append, List.mem_cons]; right; exact hu))

/-- Forward traversal along a linked segment collects exactly its members. -/
theorem fwd_seg {ch : Chain α} {x : Nat} {l : List Nat}
    (h : Linked ch x l) (htl : ch.tailId ∉ l) :
    ∀ fuel, l.length < fuel → fwdFrom ch fuel (firstD l ch.tailId) = some l := by
  induction h with
  | nil h =>
    intro fuel hfuel
    cases fuel with
    | zero => omega
    | succ f => simp [fwdFrom]
  | cons h htail ih =>
    rename_i x' y ys
    intro fuel hfuel
    cases fuel with
    | zero => simp at hfuel
    | succ f =>
      have hy : y ≠ ch.tailId := by
        intro hcontra; exact htl (by simp [hcontra])
      have hstep : iterNext ch y = .ok (firstD ys ch.tailId) :=
        (linked_first htail).1
      have hrec : fwdFrom ch f (firstD ys ch.tailId) = some ys :=
        ih (by intro hc; exact htl (by simp [hc])) f (by simpa using hfuel)
      simp only [firstD_cons, fwdFrom, if_neg hy, hstep, hrec]

/-- Backward traversal from the end of a linked segment collects its members
in reverse and then continues from the segment's start. -/
theorem bwd_seg {ch : Chain α} {x : Nat} {l : List Nat}
    (h : Linked ch x l) (hhd : ch.headId ∉ l) :
    ∀ fuel, bwdFrom ch (l.length + fuel) (lastD l x) =
      match bwdFrom ch fuel x with
      | none => none
      | some rest => some (l.reverse ++ rest) := by
  induction h with
  | nil h =>
    rename_i x0
    intro fuel
    simp only [lastD_nil, List.length_nil, Nat.zero_add,
      List.reverse_nil, List.nil_append]
    cases hb : bwdFrom ch fuel x0 <;> simp [hb]
  | cons h htail ih =>
    rename_i x' y ys
    intro fuel
    have hy : y ≠ ch.headId := by
      intro hcontra; exact hhd (by simp [hcontra])
    have hstep : iterPrev ch y = .ok x' := h.2
    have hrec := ih (by intro hc; exact hhd (by simp [hc])) (fuel + 1)
    have harith : (y :: ys).length + fuel = ys.length + (fuel + 1) := by
      simp only [List.length_cons]; omega
    rw [lastD_cons, harith, hrec]
    have hone : bwdFrom ch (fuel + 1) y =
        match bwdFrom ch fuel x' with
        | none => none
        | some rest => some (y :: rest) := by
      simp only [bwdFrom, if_neg hy, hstep]
    rw [hone]
    cases hb : bwdFrom ch fuel x' <;> simp

/-- Every member of a linked segment has a doubly-linked successor and a
doubly-linked predecessor. -/
theorem linked_pairs {ch : Chain α} {x : Nat} {l : List Nat}
    (h : Linked ch x l) :
    ∀ u ∈ l, ∃ y p, iterNext ch u = .ok y ∧ iterPrev ch y = .ok u ∧
      iterPrev ch u = .ok p ∧ iterNext ch p = .ok u := by
  induction h with
  | nil h => intro u hu; exact absurd hu (List.not_mem_nil u)
  | cons h htail ih =>
    rename_i x' y ys
    intro u hu
    rcases List.mem_cons.mp hu with rfl | hu
    · have hnext := linked_first htail
      exact ⟨firstD ys ch.tailId, x', hnext.1, hnext.2, h.2, h.1⟩
    · exact ih u hu

/-! ### Effect of `erase` on the links -/

theorem slotOf_congr {ch ch' : Chain α} (h : ch'.nodes = ch.nodes) (k : Nat)
    (s : Bool) : slotOf ch' k s = slotOf ch k s := by
  unfold slotOf; rw [h]

theorem firstD_mem_append {L2 : List Nat} {tl : Nat} :
    firstD L2 tl ∈ L2 ++ [tl] := by
  cases L2 with
  | nil => simp
  | cons y ys => simp

/-- Unfolding of `erase` once the whole doubly-linked neighborhood of the
erased node has been resolved: the result is exactly the two in-place cell
writes plus the size decrement, and the returned iterator sits at `succ`. -/
theorem erase_eq_of {ch : Chain α} {n pc pred nc succ pnc snc : Nat}
    {nd pn sn : Node α}
    (hnd : lookupA ch.nodes n = some nd) (hpc : nd.prev = some pc)
    (hpred : lookupA ch.cells pc = some pred) (hnc : nd.next = some nc)
    (hsucc : lookupA ch.cells nc = some succ)
    (hpn : lookupA ch.nodes pred = some pn) (hpnc : pn.next = some pnc)
    (hsn : lookupA ch.nodes succ = some sn) (hsnc : sn.prev = some snc) :
    erase ch n = .ok
      ({ ch with cells := upd (upd ch.cells pnc succ) snc pred,
                 size := ch.size - 1 }, succ) := by
  simp [erase, hnd, hpc, hpred, hnc, hsucc, hpn, hpnc, hsn, hsnc]

/-- After the two `erase` writes, the spine with the erased node cut out is
still doubly linked.  `ch'` is any state with the same nodes and with the
cell store changed exactly at the predecessor's forward cell (now `succ`)
and the successor's backward cell (now `pred`). -/
theorem linked_splice {ch ch' : Chain α} {n pred succ pnc snc : Nat}
    {L2 : List Nat}
    (hinj : ∀ k1 s1 k2 s2 c, slotOf ch k1 s1 = some c →
      slotOf ch k2 s2 = some c → k1 = k2 ∧ s1 = s2)
    (hnodes : ch'.nodes = ch.nodes) (ht : ch'.tailId = ch.tailId)
    (hcells : ∀ c, lookupA ch'.cells c =
      if c = snc then some pred else if c = pnc then some succ
      else lookupA ch.cells c)
    (hpnc : slotOf ch pred true = some pnc)
    (hsnc : slotOf ch succ false = some snc)
    (hsuccdef : firstD L2 ch.tailId = succ) :
    ∀ x L1, Linked ch x (L1 ++ n :: L2) → lastD L1 x = pred →
      (x :: L1 ++ n :: L2 ++ [ch.tailId]).Nodup →
      Linked ch' x (L1 ++ L2) := by
  have hpncsnc : pnc ≠ snc := by
    intro he
    have := hinj pred true succ false pnc hpnc (by rw [he]; exact hsnc)
    exact absurd this.2 (by decide)
  intro x L1
  induction L1 generalizing x with
  | nil =>
    intro hlk hlast hnodup
    simp only [lastD_nil] at hlast
    subst hlast
    cases hlk with
    | cons hadj htail =>
      cases L2 with
      | nil =>
        simp only [firstD_nil] at hsuccdef
        refine Linked.nil ⟨?_, ?_⟩
        · rw [ht, hsuccdef]
          refine iterNext_of (c := pnc) ?_ ?_
          · rw [slotOf_congr hnodes]; exact hpnc
          · rw [hcells, if_neg hpncsnc, if_pos rfl]
        · rw [ht]
          refine iterPrev_of (c := snc) ?_ ?_
          · rw [slotOf_congr hnodes, hsuccdef]; exact hsnc
          · rw [hcells, if_pos rfl]
      | cons y L2' =>
        simp only [firstD_cons] at hsuccdef
        cases htail with
        | cons hadj2 htail2 =>
          have hxnot : x ∉ y :: L2' := by
            intro hmem
            exact (List.nodup_cons.mp hnodup).1
              (List.mem_append_left _ (List.mem_cons_of_mem n hmem))
          have hynot : y ∉ L2' ++ [ch.tailId] := by
            have h2 := (List.nodup_cons.mp hnodup).2
            have h3 := (List.nodup_cons.mp h2).2
            exact (List.nodup_cons.mp h3).1
          refine Linked.cons ⟨?_, ?_⟩ ?_
          · refine iterNext_of (c := pnc) ?_ ?_
            · rw [slotOf_congr hnodes]; exact hpnc
            · rw [hcells, if_neg hpncsnc, if_pos rfl, hsuccdef]
          · refine iterPrev_of (c := snc) ?_ ?_
            · rw [slotOf_congr hnodes, hsuccdef]; exact hsnc
            · rw [hcells, if_pos rfl]
          · refine linked_of_agree htail2 ht ?_ ?_ ?_ ?_
            · intro u _; exact slotOf_congr hnodes u true
            · intro u _; exact slotOf_congr hnodes u false
            · intro u hu c hc
              rw [hcells]
              have hc_snc : c ≠ snc := by
                intro he
                have := hinj u true succ false c hc (by rw [he]; exact hsnc)
                exact absurd this.2 (by decide)
              have hc_pnc : c ≠ pnc := by
                intro he
                have := hinj u true x true c hc (by rw [he]; exact hpnc)
                exact absurd this.1 (by
                  intro hup
                  exact hxnot (hup ▸ hu))
              rw [if_neg hc_snc, if_neg hc_pnc]
            · intro u hu c hc
              rw [hcells]
              have hc_pnc : c ≠ pnc := by
                intro he
                have := hinj u false x true c hc (by rw [he]; exact hpnc)
                exact absurd this.2 (by decide)
              have hc_snc : c ≠ snc := by
                intro he
                have := hinj u false succ false c hc (by rw [he]; exact hsnc)
                exact absurd this.1 (by
                  intro hup
                  rw [hup, ← hsuccdef] at hu
                  exact hynot hu)
              rw [if_neg hc_snc, if_neg hc_pnc]
  | cons p L1' ih =>
    intro hlk hlast hnodup
    simp only [lastD_cons] at hlast
    cases hlk with
    | cons hadj htail =>
      have hnodup' : ((p :: L1') ++ (n :: L2) ++ [ch.tailId]).Nodup :=
        (List.nodup_cons.mp hnodup).2
      have hxnot : x ∉ (p :: L1') ++ (n :: L2) ++ [ch.tailId] :=
        (List.nodup_cons.mp hnodup).1
      have hxpred : x ≠ pred := by
        intro he
        have hmem : pred ∈ p :: L1' := hlast ▸ mem_lastD L1' p
        exact hxnot (by
          rw [he]
          exact List.mem_append_left _ (List.mem_append_left _ hmem))
      have hpsucc : p ≠ succ := by
        intro he
        have hpnotin : p ∉ L1' ++ (n :: L2) ++ [ch.tailId] :=
          (List.nodup_cons.mp hnodup').1
        have hmem : succ ∈ L2 ++ [ch.tailId] :=
          hsuccdef ▸ firstD_mem_append
        refine hpnotin ?_
        rw [he]
        rcases List.mem_append.mp hmem with hL | hT
        · exact List.mem_append_left _
            (List.mem_append_right _ (List.mem_cons_of_mem _ hL))
        · exact List.mem_append_right _ hT
      rcases hadj with ⟨h1, h2⟩
      rcases iterNext_ok_iff.mp h1 with ⟨cx, hcx, hcxv⟩
      rcases iterPrev_ok_iff.mp h2 with ⟨cp, hcp, hcpv⟩
      refine Linked.cons ⟨?_, ?_⟩ (ih p htail hlast hnodup')
      · refine iterNext_of (c := cx) ?_ ?_
        · rw [slotOf_congr hnodes]; exact hcx
        · rw [hcells]
          have hne1 : cx ≠ snc := by
            intro he
            have := hinj x true succ false cx hcx (by rw [he]; exact hsnc)
            exact absurd this.2 (by decide)
          have hne2 : cx ≠ pnc := by
            intro he
            have := hinj x true pred true cx hcx (by rw [he]; exact hpnc)
            exact absurd this.1 hxpred
          rw [if_neg hne1, if_neg hne2]
          exact hcxv
      · refine iterPrev_of (c := cp) ?_ ?_
        · rw [slotOf_congr hnodes]; exact hcp
        · rw [hcells]
          have hne1 : cp ≠ snc := by
            intro he
            have := hinj p false succ false cp hcp (by rw [he]; exact hsnc)
            exact absurd this.1 hpsucc
          have hne2 : cp ≠ pnc := by
            intro he
            have := hinj p false pred true cp hcp (by rw [he]; exact hpnc)
            exact absurd this.2 (by decide)
          rw [if_neg hne1, if_neg hne2]
          exact hcpv

theorem nodup_split3 {A B C : List Nat} (h : (A ++ B ++ C).Nodup) :
    A.Nodup ∧ B.Nodup ∧ C.Nodup ∧ A.Disjoint B ∧ A.Disjoint C ∧
      B.Disjoint C := by
  rw [List.nodup_append, List.nodup_append, List.disjoint_append_left] at h
  tauto

/-- Full specification of `erase` at an attached ordinary node: the resolved
neighborhood, the exact result state (two cell writes, size decrement,
returned cursor at the successor), the distinctness of the four cells
involved, and preservation of well-formedness with the node cut out of the
spine. -/
theorem erase_spec [Inhabited α] {ch : Chain α} {L1 L2 : List Nat} {n : Nat}
    (inv : Inv ch (L1 ++ n :: L2)) :
    ∃ (ch' : Chain α) (nd pn sn : Node α) (pc pred nc succ pnc snc : Nat),
      pred = lastD L1 ch.headId ∧ succ = firstD L2 ch.tailId ∧
      lookupA ch.nodes n = some nd ∧ nd.prev = some pc ∧ nd.next = some nc ∧
      lookupA ch.cells pc = some pred ∧ lookupA ch.cells nc = some succ ∧
      lookupA ch.nodes pred = some pn ∧ pn.next = some pnc ∧
      lookupA ch.nodes succ = some sn ∧ sn.prev = some snc ∧
      lookupA ch.cells pnc = some n ∧ lookupA ch.cells snc = some n ∧
      erase ch n = .ok (ch', succ) ∧
      ch' = { ch with cells := upd (upd ch.cells pnc succ) snc pred,
                      size := ch.size - 1 } ∧
      pnc ≠ snc ∧ nc ≠ pnc ∧ nc ≠ snc ∧ pc ≠ pnc ∧ pc ≠ snc ∧
      n ≠ pred ∧ n ≠ succ ∧ pred ≠ succ ∧
      Inv ch' (L1 ++ L2) := by
  obtain ⟨hlkd, hnodup, hsz, hhead, htlnode, hinj, hslt, hnkl, hckl⟩ := inv
  obtain ⟨hadjp, hadjs⟩ := linked_mid hlkd
  rcases iterPrev_ok_iff.mp hadjp.2 with ⟨pc, hpcs, hpcv⟩
  rcases iterNext_ok_iff.mp hadjs.1 with ⟨nc, hncs, hncv⟩
  rcases iterNext_ok_iff.mp hadjp.1 with ⟨pnc, hpncs, hpncv⟩
  rcases iterPrev_ok_iff.mp hadjs.2 with ⟨snc, hsncs, hsncv⟩
  rcases slotOf_false_iff.mp hpcs with ⟨nd, hnd, hndp⟩
  rcases slotOf_true_iff.mp hncs with ⟨nd2, hnd2, hnd2n⟩
  have hndeq : nd2 = nd := by
    rw [hnd] at hnd2; exact (Option.some.inj hnd2).symm
  subst hndeq
  rcases slotOf_true_iff.mp hpncs with ⟨pn, hpn, hpnn⟩
  rcases slotOf_false_iff.mp hsncs with ⟨sn, hsn, hsnp⟩
  obtain ⟨hA, hB, hC, hAB, hAC, hBC⟩ :=
    nodup_split3 (A := ch.headId :: L1) (B := n :: L2) (C := [ch.tailId])
      hnodup
  have hpredA : lastD L1 ch.headId ∈ ch.headId :: L1 := mem_lastD L1 ch.headId
  have hsuccBC : firstD L2 ch.tailId ∈ L2 ++ [ch.tailId] := firstD_mem_append
  have hnpred : n ≠ lastD L1 ch.headId := by
    intro he
    exact hAB (by rw [he]; exact hpredA) (List.mem_cons_self n L2)
  have hnsucc : n ≠ firstD L2 ch.tailId := by
    intro he
    rcases List.mem_append.mp hsuccBC with hL | hT
    · exact (List.nodup_cons.mp hB).1 (by rw [he]; exact hL)
    · exact hBC (List.mem_cons_self n L2) (by rw [he]; exact hT)
  have hpredsucc : lastD L1 ch.headId ≠ firstD L2 ch.tailId := by
    intro he
    rcases List.mem_append.mp hsuccBC with hL | hT
    · exact hAB hpredA (by rw [he]; exact List.mem_cons_of_mem n hL)
    · exact hAC hpredA (by rw [he]; exact hT)
  have hpncsnc : pnc ≠ snc := fun he => absurd
    (hinj _ true _ false pnc hpncs (by rw [he]; exact hsncs)).2 (by decide)
  have hncpnc : nc ≠ pnc := by
    intro he
    exact hnpred
      (hinj n true (lastD L1 ch.headId) true nc hncs
        (by rw [he]; exact hpncs)).1
  have hncsnc : nc ≠ snc := fun he => absurd
    (hinj n true (firstD L2 ch.tailId) false nc hncs
      (by rw [he]; exact hsncs)).2 (by decide)
  have hpcpnc : pc ≠ pnc := fun he => absurd
    (hinj n false (lastD L1 ch.headId) true pc hpcs
      (by rw [he]; exact hpncs)).2 (by decide)
  have hpcsnc : pc ≠ snc := by
    intro he
    exact hnsucc
      (hinj n false (firstD L2 ch.tailId) false pc hpcs
        (by rw [he]; exact hsncs)).1
  have heq := erase_eq_of hnd hndp hpcv hnd2n hncv hpn hpnn hsn hsnp
  refine ⟨_, nd2, pn, sn, pc, _, nc, _, pnc, snc, rfl, rfl, hnd, hndp, hnd2n,
    hpcv, hncv, hpn, hpnn, hsn, hsnp, hpncv, hsncv, heq, rfl, hpncsnc, hncpnc,
    hncsnc, hpcpnc, hpcsnc, hnpred, hnsucc, hpredsucc, ?_⟩
  refine ⟨?_, ?_, ?_, hhead, htlnode, hinj, hslt, hnkl, ?_⟩
  · refine linked_splice hinj ?_ ?_ ?_ hpncs hsncs ?_ ch.headId L1 hlkd ?_
      hnodup
    · rfl
    · rfl
    · intro c; rfl
    · rfl
    · rfl
  · have hsub : List.Sublist ((ch.headId :: (L1 ++ L2)) ++ [ch.tailId])
        ((ch.headId :: (L1 ++ n :: L2)) ++ [ch.tailId]) := by
      refine List.Sublist.append_right ?_ _
      exact List.Sublist.cons₂ _
        (List.Sublist.append_left (List.sublist_cons_self n L2) L1)
    exact hnodup.sublist hsub
  · show ch.size - 1 = (L1 ++ L2).length
    rw [hsz]
    simp only [List.length_append, List.length_cons]
    omega
  · intro c hc
    by_cases h1 : c = snc
    · subst h1; exact hslt _ _ _ hsncs
    · by_cases h2 : c = pnc
      · subst h2; exact hslt _ _ _ hpncs
      · refine hckl c ?_
        simpa [upd, lookupA, h1, h2] using hc

/-! ### Effect of `push_back` on the links -/

/-- Unfolding of `push_back` once `tail_->prev->ptr` has been resolved: the
new node gets id `freshNode`; `link(last, node)` allocates cells `freshCell`
(the replacement for `last`'s forward cell) and `freshCell + 1`, and
`link(node, tail_)` allocates cells `freshCell + 2` and `freshCell + 3` (the
replacement for `tail_`'s backward cell). -/
theorem push_back_eq {ch : Chain α} {v : α} {tn ln : Node α} {tpc last : Nat}
    (htn : lookupA ch.nodes ch.tailId = some tn) (htpc : tn.prev = some tpc)
    (hlast : lookupA ch.cells tpc = some last)
    (hln : lookupA ch.nodes last = some ln)
    (hne1 : ch.tailId ≠ ch.freshNode) (hne2 : last ≠ ch.freshNode)
    (hne3 : ch.tailId ≠ last) :
    push_back ch v = .ok
      { nodes := upd (upd (upd (upd (upd ch.nodes ch.freshNode ⟨none, none, v⟩)
            last { ln with next := some ch.freshCell })
            ch.freshNode ⟨none, some (ch.freshCell + 1), v⟩)
            ch.freshNode ⟨some (ch.freshCell + 2), some (ch.freshCell + 1), v⟩)
            ch.tailId { tn with prev := some (ch.freshCell + 3) },
        cells := upd (upd (upd (upd ch.cells ch.freshCell ch.freshNode)
            (ch.freshCell + 1) last)
            (ch.freshCell + 2) ch.tailId)
            (ch.freshCell + 3) ch.freshNode,
        headId := ch.headId, tailId := ch.tailId,
        freshNode := ch.freshNode + 1, freshCell := ch.freshCell + 4,
        size := ch.size + 1 } := by
  simp [push_back, linkOp, lookupA, upd, htn, htpc, hlast, hln,
    hne1, hne2, hne3, Ne.symm hne2]

/-- Appending a fresh node at the back preserves the doubly-linked spine:
the old spine keeps its links (its cells all predate `freshCell`) and the
three rewired nodes (`last`, the new node, `tail_`) are linked through the
four freshly allocated cells. -/
theorem linked_snoc {ch ch' : Chain α} (last n fc : Nat)
    (hslt : ∀ k s c, slotOf ch k s = some c → c < fc)
    (ht : ch'.tailId = ch.tailId)
    (hnext : ∀ u, u ≠ last → u ≠ n → u ≠ ch.tailId →
        slotOf ch' u true = slotOf ch u true)
    (hprev : ∀ u, u ≠ n → u ≠ ch.tailId →
        slotOf ch' u false = slotOf ch u false)
    (hlastn : slotOf ch' last true = some fc)
    (hnn : slotOf ch' n true = some (fc + 2))
    (hnp : slotOf ch' n false = some (fc + 1))
    (htp : slotOf ch' ch.tailId false = some (fc + 3))
    (hcells : ∀ c, lookupA ch'.cells c =
        if c = fc + 3 then some n else if c = fc + 2 then some ch.tailId
        else if c = fc + 1 then some last else if c = fc then some n
        else lookupA ch.cells c) :
    ∀ x l, Linked ch x l → lastD l x = last →
      ch.tailId ∉ x :: l → n ∉ x :: l → (x :: l).Nodup →
      Linked ch' x (l ++ [n]) := by
  intro x l
  induction l generalizing x with
  | nil =>
    intro hlk hlast htl hnl _
    simp only [lastD_nil] at hlast
    subst hlast
    refine Linked.cons ⟨?_, ?_⟩ (Linked.nil ⟨?_, ?_⟩)
    · refine iterNext_of hlastn ?_
      rw [hcells]
      have e1 : fc ≠ fc + 3 := by omega
      have e2 : fc ≠ fc + 2 := by omega
      have e3 : fc ≠ fc + 1 := by omega
      rw [if_neg e1, if_neg e2, if_neg e3, if_pos rfl]
    · refine iterPrev_of hnp ?_
      rw [hcells]
      have e1 : fc + 1 ≠ fc + 3 := by omega
      have e2 : fc + 1 ≠ fc + 2 := by omega
      rw [if_neg e1, if_neg e2, if_pos rfl]
    · rw [ht]
      refine iterNext_of hnn ?_
      rw [hcells]
      have e1 : fc + 2 ≠ fc + 3 := by omega
      rw [if_neg e1, if_pos rfl]
    · rw [ht]
      refine iterPrev_of htp ?_
      rw [hcells, if_pos rfl]
  | cons y ys ih =>
    intro hlk hlast htl hnl hnodup
    simp only [lastD_cons] at hlast
    cases hlk with
    | cons hadj htail =>
      have hxlast : x ≠ last := by
        intro he
        have hmem : last ∈ y :: ys := hlast ▸ mem_lastD ys y
        exact (List.nodup_cons.mp hnodup).1 (by rw [he]; exact hmem)
      have hxn : x ≠ n := fun he => hnl (by rw [← he]; exact List.mem_cons_self x _)
      have hxt : x ≠ ch.tailId := fun he => htl (by rw [← he]; exact List.mem_cons_self x _)
      have hyn : y ≠ n := fun he =>
        hnl (by rw [← he]; exact List.mem_cons_of_mem x (List.mem_cons_self y ys))
      have hyt : y ≠ ch.tailId := fun he =>
        htl (by rw [← he]; exact List.mem_cons_of_mem x (List.mem_cons_self y ys))
      rcases hadj with ⟨h1, h2⟩
      rcases iterNext_ok_iff.mp h1 with ⟨cx, hcx, hcxv⟩
      rcases iterPrev_ok_iff.mp h2 with ⟨cy, hcy, hcyv⟩
      have hcx_lt : cx < fc := hslt _ _ _ hcx
      have hcy_lt : cy < fc := hslt _ _ _ hcy
      refine Linked.cons ⟨?_, ?_⟩ ?_
      · refine iterNext_of (c := cx) ?_ ?_
        · rw [hnext x hxlast hxn hxt]; exact hcx
        · rw [hcells]
          have e1 : cx ≠ fc + 3 := by omega
          have e2 : cx ≠ fc + 2 := by omega
          have e3 : cx ≠ fc + 1 := by omega
          have e4 : cx ≠ fc := by omega
          rw [if_neg e1, if_neg e2, if_neg e3, if_neg e4]
          exact hcxv
      · refine iterPrev_of (c := cy) ?_ ?_
        · rw [hprev y hyn hyt]; exact hcy
        · rw [hcells]
          have e1 : cy ≠ fc + 3 := by omega
          have e2 : cy ≠ fc + 2 := by omega
          have e3 : cy ≠ fc + 1 := by omega
          have e4 : cy ≠ fc := by omega
          rw [if_neg e1, if_neg e2, if_neg e3, if_neg e4]
          exact hcyv
      · refine ih y htail hlast ?_ ?_ (List.nodup_cons.mp hnodup).2
        · intro hmem; exact htl (List.mem_cons_of_mem x hmem)
        · intro hmem; exact hnl (List.mem_cons_of_mem x hmem)

/-- Full specification of `push_back` on a well-formed chain: it succeeds,
appends the fresh node to the spine, and allocates brand-new cells — in
particular the former last node's forward-cell field now holds the fresh cell
`freshCell` while every pre-existing cell (id below `freshCell`) keeps its
old content. -/
theorem push_back_spec [Inhabited α] {ch : Chain α} {L : List Nat} (v : α)
    (inv : Inv ch L) :
    ∃ ch', push_back ch v = .ok ch' ∧ Inv ch' (L ++ [ch.freshNode]) ∧
      ch'.headId = ch.headId ∧ ch'.tailId = ch.tailId ∧
      ch'.freshNode = ch.freshNode + 1 ∧ ch'.size = ch.size + 1 ∧
      slotOf ch' (lastD L ch.headId) true = some ch.freshCell ∧
      lookupA ch'.cells ch.freshCell = some ch.freshNode ∧
      slotOf ch' ch.tailId false = some (ch.freshCell + 3) ∧
      lookupA ch'.cells (ch.freshCell + 3) = some ch.freshNode ∧
      (∀ c, c < ch.freshCell → lookupA ch'.cells c = lookupA ch.cells c) := by
  obtain ⟨hlkd, hnodup, hsz, hhead, htlnode, hinj, hslt, hnkl, hckl⟩ := inv
  have hadj := linked_last hlkd
  rcases iterPrev_ok_iff.mp hadj.2 with ⟨tpc, htpcs, htpcv⟩
  rcases iterNext_ok_iff.mp hadj.1 with ⟨oc, hocs, hocv⟩
  rcases slotOf_false_iff.mp htpcs with ⟨tn, htn, htnp⟩
  rcases slotOf_true_iff.mp hocs with ⟨ln, hln, hlnn⟩
  obtain ⟨tnd, htnd, htndn, htndv⟩ := htlnode
  have htneq : tn = tnd := by
    rw [htn] at htnd; exact Option.some.inj htnd
  subst htneq
  obtain ⟨hnd, hhnd, hhndp, hhndv⟩ := hhead
  have htail_lt : ch.tailId < ch.freshNode := hnkl _ (by simp [htn])
  have hlast_lt : lastD L ch.headId < ch.freshNode := hnkl _ (by simp [hln])
  have hhead_lt : ch.headId < ch.freshNode := hnkl _ (by simp [hhnd])
  have hne1 : ch.tailId ≠ ch.freshNode := Nat.ne_of_lt htail_lt
  have hne2 : lastD L ch.headId ≠ ch.freshNode := Nat.ne_of_lt hlast_lt
  have hABt := List.nodup_append.mp hnodup
  have hlast_mem : lastD L ch.headId ∈ ch.headId :: L := mem_lastD L ch.headId
  have hne3 : ch.tailId ≠ lastD L ch.headId := by
    intro he
    exact hABt.2.2 (by rw [← he] at hlast_mem; exact hlast_mem)
      (List.mem_singleton.mpr rfl)
  have hht : ch.headId ≠ ch.tailId := by
    intro he
    exact hABt.2.2 (List.mem_cons_self _ _) (List.mem_singleton.mpr he)
  have heq := push_back_eq (v := v) htn htnp htpcv hln hne1 hne2 hne3
  refine ⟨_, heq, ?_, rfl, rfl, rfl, rfl, ?_, ?_, ?_, ?_, ?_⟩
  case refine_2 =>
    simp [slotOf, upd, lookupA, Ne.symm hne3, hne2]
  case refine_3 =>
    have e1 : ch.freshCell ≠ ch.freshCell + 3 := by omega
    have e2 : ch.freshCell ≠ ch.freshCell + 2 := by omega
    have e3 : ch.freshCell ≠ ch.freshCell + 1 := by omega
    simp [upd, lookupA, e1, e2, e3]
  case refine_4 =>
    simp [slotOf, upd, lookupA]
  case refine_5 =>
    simp [upd, lookupA]
  case refine_6 =>
    intro c hc
    have e1 : c ≠ ch.freshCell + 3 := by omega
    have e2 : c ≠ ch.freshCell + 2 := by omega
    have e3 : c ≠ ch.freshCell + 1 := by omega
    have e4 : c ≠ ch.freshCell := by omega
    simp [upd, lookupA, e1, e2, e3, e4]
  -- well-formedness of the extended chain
  have hslotPB : ∀ k s c, slotOf
      { nodes := upd (upd (upd (upd (upd ch.nodes ch.freshNode ⟨none, none, v⟩)
            (lastD L ch.headId) { ln with next := some ch.freshCell })
            ch.freshNode ⟨none, some (ch.freshCell + 1), v⟩)
            ch.freshNode ⟨some (ch.freshCell + 2), some (ch.freshCell + 1), v⟩)
            ch.tailId { tn with prev := some (ch.freshCell + 3) },
        cells := upd (upd (upd (upd ch.cells ch.freshCell ch.freshNode)
            (ch.freshCell + 1) (lastD L ch.headId))
            (ch.freshCell + 2) ch.tailId)
            (ch.freshCell + 3) ch.freshNode,
        headId := ch.headId, tailId := ch.tailId,
        freshNode := ch.freshNode + 1, freshCell := ch.freshCell + 4,
        size := ch.size + 1 } k s = some c →
      (k = ch.tailId ∧ s = false ∧ c = ch.freshCell + 3) ∨
      (k = ch.freshNode ∧ s = true ∧ c = ch.freshCell + 2) ∨
      (k = ch.freshNode ∧ s = false ∧ c = ch.freshCell + 1) ∨
      (k = lastD L ch.headId ∧ s = true ∧ c = ch.freshCell) ∨
      (slotOf ch k s = some c ∧ k ≠ ch.freshNode ∧
        ¬(k = lastD L ch.headId ∧ s = true) ∧ k ≠ ch.tailId) := by
    intro k s c h
    by_cases h1 : k = ch.tailId
    · subst h1
      cases s
      · left
        refine ⟨rfl, rfl, ?_⟩
        simpa [slotOf, upd, lookupA] using h.symm
      · exfalso
        simp [slotOf, upd, lookupA, htndn] at h
    · by_cases h2 : k = ch.freshNode
      · subst h2
        cases s
        · right; right; left
          refine ⟨rfl, rfl, ?_⟩
          simpa [slotOf, upd, lookupA, h1] using h.symm
        · right; left
          refine ⟨rfl, rfl, ?_⟩
          simpa [slotOf, upd, lookupA, h1] using h.symm
      · by_cases h3 : k = lastD L ch.headId
        · subst h3
          cases s
          · right; right; right; right
            refine ⟨?_, h2, ?_, h1⟩
            · have h' : ln.prev = some c := by
                simpa [slotOf, upd, lookupA, h1, h2] using h
              simp [slotOf, hln, h']
            · intro hcon
              exact absurd hcon.2 (by decide)
          · right; right; right; left
            refine ⟨rfl, rfl, ?_⟩
            simpa [slotOf, upd, lookupA, h1, h2] using h.symm
        · right; right; right; right
          refine ⟨?_, h2, fun hcon => absurd hcon.1 h3, h1⟩
          simp only [slotOf, upd, lookupA, if_neg h1, if_neg h2, if_neg h3] at h
          simpa only [slotOf] using h
  refine ⟨?_, ?_, ?_, ?_, ?_, ?_, ?_, ?_, ?_⟩
  · refine linked_snoc (lastD L ch.headId) ch.freshNode ch.freshCell hslt
      ?_ ?_ ?_ ?_ ?_ ?_ ?_ ?_ ch.headId L hlkd rfl ?_ ?_ ?_
    · rfl
    · intro u hu1 hu2 hu3
      simp [slotOf, upd, lookupA, hu1, hu2, hu3]
    · intro u hu2 hu3
      by_cases hu1 : u = lastD L ch.headId
      · subst hu1
        simp [slotOf, upd, lookupA, hu2, hu3, hln]
      · simp [slotOf, upd, lookupA, hu1, hu2, hu3]
    · simp [slotOf, upd, lookupA, Ne.symm hne3, hne2]
    · simp [slotOf, upd, lookupA, Ne.symm hne1]
    · simp [slotOf, upd, lookupA, Ne.symm hne1]
    · simp [slotOf, upd, lookupA]
    · intro c
      rfl
    · intro hmem
      exact hABt.2.2 hmem (List.mem_singleton.mpr rfl)
    · intro hmem
      exact absurd (hnkl ch.freshNode
        (linked_nodes_isSome hlkd _ (List.mem_append_left _ hmem))) (by omega)
    · exact (List.nodup_append.mp hnodup).1
  · rw [List.cons_append, List.append_assoc]
    show ((ch.headId :: L) ++ ch.freshNode :: [ch.tailId]).Nodup
    refine List.nodup_middle.mpr (List.nodup_cons.mpr ⟨?_, hnodup⟩)
    intro hmem
    exact absurd (hnkl ch.freshNode (linked_nodes_isSome hlkd _ hmem))
      (by omega)
  · show ch.size + 1 = (L ++ [ch.freshNode]).length
    simp [hsz]
  · by_cases hhl : ch.headId = lastD L ch.headId
    · rw [← hhl] at hln
      have hlneq : ln = hnd := by
        rw [hln] at hhnd; exact Option.some.inj hhnd
      refine ⟨{ ln with next := some ch.freshCell }, ?_, ?_, ?_⟩
      · simp only [upd, lookupA]
        rw [if_neg hht, if_neg (Nat.ne_of_lt hhead_lt),
          if_neg (Nat.ne_of_lt hhead_lt), if_pos hhl]
      · show ln.prev = none
        rw [hlneq]; exact hhndp
      · show ln.value = default
        rw [hlneq]; exact hhndv
    · refine ⟨hnd, ?_, hhndp, hhndv⟩
      simp only [upd, lookupA]
      rw [if_neg hht, if_neg (Nat.ne_of_lt hhead_lt),
        if_neg (Nat.ne_of_lt hhead_lt), if_neg hhl,
        if_neg (Nat.ne_of_lt hhead_lt)]
      exact hhnd
  · refine ⟨{ tn with prev := some (ch.freshCell + 3) }, ?_, htndn, htndv⟩
    simp [upd, lookupA]
  · intro k1 s1 k2 s2 c h1 h2
    rcases hslotPB k1 s1 c h1 with
      ⟨hk, hs, hc⟩ | ⟨hk, hs, hc⟩ | ⟨hk, hs, hc⟩ | ⟨hk, hs, hc⟩ |
      ⟨hold, hn1, hl1, ht1⟩ <;>
    rcases hslotPB k2 s2 c h2 with
      ⟨hk2, hs2, hc2⟩ | ⟨hk2, hs2, hc2⟩ | ⟨hk2, hs2, hc2⟩ | ⟨hk2, hs2, hc2⟩ |
      ⟨hold2, hn2, hl2, ht2⟩ <;>
    first
      | exact ⟨hk.trans hk2.symm, hs.trans hs2.symm⟩
      | (exfalso; omega)
      | exact hinj _ _ _ _ _ hold hold2
      | (have hlt := hslt _ _ _ hold2; exfalso; omega)
      | (have hlt := hslt _ _ _ hold; exfalso; omega)
  · intro k s c h
    show c < ch.freshCell + 4
    rcases hslotPB k s c h with
      ⟨_, _, hc⟩ | ⟨_, _, hc⟩ | ⟨_, _, hc⟩ | ⟨_, _, hc⟩ | ⟨hold, _, _, _⟩
    · omega
    · omega
    · omega
    · omega
    · have := hslt _ _ _ hold; omega
  · intro k hk
    show k < ch.freshNode + 1
    by_cases h1 : k = ch.tailId
    · omega
    · by_cases h2 : k = ch.freshNode
      · omega
      · by_cases h3 : k = lastD L ch.headId
        · omega
        · simp only [upd, lookupA, if_neg h1, if_neg h2, if_neg h3] at hk
          have := hnkl k hk
          omega
  · intro c hc
    show c < ch.freshCell + 4
    by_cases e1 : c = ch.freshCell + 3
    · omega
    · by_cases e2 : c = ch.freshCell + 2
      · omega
      · by_cases e3 : c = ch.freshCell + 1
        · omega
        · by_cases e4 : c = ch.freshCell
          · omega
          · simp only [upd, lookupA, if_neg e1, if_neg e2, if_neg e3,
              if_neg e4] at hc
            have := hckl c hc
            omega
/-! ### Effect of `push_front` on the links -/

/-- Unfolding of `push_front` once `head_->next->ptr` has been resolved:
`link(head_, node)` allocates cells `freshCell` (the replacement for
`head_`'s forward cell) and `freshCell + 1`, and `link(node, first)`
allocates cells `freshCell + 2` and `freshCell + 3` (the replacement for
`first`'s backward cell). -/
theorem push_front_eq {ch : Chain α} {v : α} {hn fn : Node α}
    {hnc first : Nat}
    (hhn : lookupA ch.nodes ch.headId = some hn) (hhnc : hn.next = some hnc)
    (hfirst : lookupA ch.cells hnc = some first)
    (hfn : lookupA ch.nodes first = some fn)
    (hne1 : ch.headId ≠ ch.freshNode) (hne2 : first ≠ ch.freshNode)
    (hne3 : first ≠ ch.headId) :
    push_front ch v = .ok
      { nodes := upd (upd (upd (upd (upd ch.nodes ch.freshNode ⟨none, none, v⟩)
            ch.headId { hn with next := some ch.freshCell })
            ch.freshNode ⟨none, some (ch.freshCell + 1), v⟩)
            ch.freshNode ⟨some (ch.freshCell + 2), some (ch.freshCell + 1), v⟩)
            first { fn with prev := some (ch.freshCell + 3) },
        cells := upd (upd (upd (upd ch.cells ch.freshCell ch.freshNode)
            (ch.freshCell + 1) ch.headId)
            (ch.freshCell + 2) first)
            (ch.freshCell + 3) ch.freshNode,
        headId := ch.headId, tailId := ch.tailId,
        freshNode := ch.freshNode + 1, freshCell := ch.freshCell + 4,
        size := ch.size + 1 } := by
  simp [push_front, linkOp, lookupA, upd, hhn, hhnc, hfirst, hfn,
    hne1, hne2, hne3, Ne.symm hne1]

/-- Prepending a fresh node at the front preserves the doubly-linked spine. -/
theorem linked_front {ch ch' : Chain α} (first n fc : Nat)
    (hslt : ∀ k s c, slotOf ch k s = some c → c < fc)
    (ht : ch'.tailId = ch.tailId)
    (hnt : ch.tailId ≠ n)
    (hnext : ∀ u, u ≠ ch.headId → u ≠ n → slotOf ch' u true = slotOf ch u true)
    (hprev : ∀ u, u ≠ first → u ≠ n → slotOf ch' u false = slotOf ch u false)
    (hheadn : slotOf ch' ch.headId true = some fc)
    (hnn : slotOf ch' n true = some (fc + 2))
    (hnp : slotOf ch' n false = some (fc + 1))
    (hfp : slotOf ch' first false = some (fc + 3))
    (hcells : ∀ c, lookupA ch'.cells c =
        if c = fc + 3 then some n else if c = fc + 2 then some first
        else if c = fc + 1 then some ch.headId else if c = fc then some n
        else lookupA ch.cells c) :
    ∀ l, Linked ch ch.headId l → firstD l ch.tailId = first →
      ch.headId ∉ l → n ∉ ch.headId :: l → ch.tailId ∉ l → l.Nodup →
      Linked ch' ch.headId (n :: l) := by
  have e1 : fc ≠ fc + 3 := by omega
  have e2 : fc ≠ fc + 2 := by omega
  have e3 : fc ≠ fc + 1 := by omega
  have e4 : fc + 1 ≠ fc + 3 := by omega
  have e5 : fc + 1 ≠ fc + 2 := by omega
  have e6 : fc + 2 ≠ fc + 3 := by omega
  have hadjhn : adjR ch' ch.headId n := by
    constructor
    · refine iterNext_of hheadn ?_
      rw [hcells, if_neg e1, if_neg e2, if_neg e3, if_pos rfl]
    · refine iterPrev_of hnp ?_
      rw [hcells, if_neg e4, if_neg e5, if_pos rfl]
  intro l hlk hfd hh hnl htl hnodup
  cases l with
  | nil =>
    simp only [firstD_nil] at hfd
    subst hfd
    refine Linked.cons hadjhn (Linked.nil ⟨?_, ?_⟩)
    · rw [ht]
      refine iterNext_of hnn ?_
      rw [hcells, if_neg e6, if_pos rfl]
    · rw [ht]
      refine iterPrev_of hfp ?_
      rw [hcells, if_pos rfl]
  | cons y ys =>
    simp only [firstD_cons] at hfd
    subst hfd
    cases hlk with
    | cons hadj htail =>
      have hynotys : y ∉ ys := (List.nodup_cons.mp hnodup).1
      have hytl : y ≠ ch.tailId := by
        intro he; exact htl (by rw [← he]; exact List.mem_cons_self _ _)
      refine Linked.cons hadjhn (Linked.cons ⟨?_, ?_⟩ ?_)
      · refine iterNext_of hnn ?_
        rw [hcells, if_neg e6, if_pos rfl]
      · refine iterPrev_of hfp ?_
        rw [hcells, if_pos rfl]
      · refine linked_of_agree htail ht ?_ ?_ ?_ ?_
        · intro u hu
          refine hnext u ?_ ?_
          · intro he
            exact hh (by rw [← he]; exact hu)
          · intro he
            exact hnl (by rw [← he]; exact List.mem_cons_of_mem _ hu)
        · intro u hu
          rcases List.mem_append.mp hu with hu1 | hu1
          · refine hprev u ?_ ?_
            · intro he; exact hynotys (he ▸ hu1)
            · intro he
              exact hnl (by
                rw [← he]
                exact List.mem_cons_of_mem _ (List.mem_cons_of_mem _ hu1))
          · have hut : u = ch.tailId := List.mem_singleton.mp hu1
            subst hut
            exact hprev _ (Ne.symm hytl) hnt
        · intro u _ c hc
          have hlt := hslt _ _ _ hc
          rw [hcells]
          have d1 : c ≠ fc + 3 := by omega
          have d2 : c ≠ fc + 2 := by omega
          have d3 : c ≠ fc + 1 := by omega
          have d4 : c ≠ fc := by omega
          rw [if_neg d1, if_neg d2, if_neg d3, if_neg d4]
        · intro u _ c hc
          have hlt := hslt _ _ _ hc
          rw [hcells]
          have d1 : c ≠ fc + 3 := by omega
          have d2 : c ≠ fc + 2 := by omega
          have d3 : c ≠ fc + 1 := by omega
          have d4 : c ≠ fc := by omega
          rw [if_neg d1, if_neg d2, if_neg d3, if_neg d4]

/-- Full specification of `push_front` on a well-formed chain: it succeeds
and prepends the fresh node to the spine. -/
theorem push_front_spec [Inhabited α] {ch : Chain α} {L : List Nat} (v : α)
    (inv : Inv ch L) :
    ∃ ch', push_front ch v = .ok ch' ∧ Inv ch' (ch.freshNode :: L) ∧
      ch'.headId = ch.headId ∧ ch'.tailId = ch.tailId ∧
      ch'.size = ch.size + 1 := by
  obtain ⟨hlkd, hnodup, hsz, hhead, htlnode, hinj, hslt, hnkl, hckl⟩ := inv
  have hadj := linked_first hlkd
  rcases iterNext_ok_iff.mp hadj.1 with ⟨hnc, hhncs, hhncv⟩
  rcases iterPrev_ok_iff.mp hadj.2 with ⟨fpc, hfps, hfpv⟩
  rcases slotOf_true_iff.mp hhncs with ⟨hn, hhn, hhnn⟩
  rcases slotOf_false_iff.mp hfps with ⟨fn, hfn, hfnp⟩
  obtain ⟨hnd, hhnd, hhndp, hhndv⟩ := hhead
  have hhneq : hn = hnd := by
    rw [hhn] at hhnd; exact Option.some.inj hhnd
  subst hhneq
  obtain ⟨tnd, htnd, htndn, htndv⟩ := htlnode
  have hhead_lt : ch.headId < ch.freshNode := hnkl _ (by simp [hhn])
  have hfirst_lt : firstD L ch.tailId < ch.freshNode := hnkl _ (by simp [hfn])
  have htail_lt : ch.tailId < ch.freshNode := hnkl _ (by simp [htnd])
  have hne1 : ch.headId ≠ ch.freshNode := Nat.ne_of_lt hhead_lt
  have hne2 : firstD L ch.tailId ≠ ch.freshNode := Nat.ne_of_lt hfirst_lt
  have hABt := List.nodup_append.mp hnodup
  have hh_notin : ch.headId ∉ L ++ [ch.tailId] := (List.nodup_cons.mp hnodup).1
  have hfirst_mem : firstD L ch.tailId ∈ L ++ [ch.tailId] := firstD_mem_append
  have hne3 : firstD L ch.tailId ≠ ch.headId := by
    intro he
    exact hh_notin (by rw [← he]; exact hfirst_mem)
  have hht : ch.headId ≠ ch.tailId := by
    intro he
    exact hABt.2.2 (List.mem_cons_self _ _) (List.mem_singleton.mpr he)
  have htl_notin : ch.tailId ∉ L := by
    intro hmem
    exact hABt.2.2 (List.mem_cons_of_mem _ hmem) (List.mem_singleton.mpr rfl)
  have hn_big : ∀ u ∈ ch.headId :: L, u < ch.freshNode := by
    intro u hu
    exact hnkl u (linked_nodes_isSome hlkd u (List.mem_append_left _ hu))
  have heq := push_front_eq (v := v) hhn hhnn hhncv hfn hne1 hne2 hne3
  refine ⟨_, heq, ?_, rfl, rfl, rfl⟩
  have hslotPF : ∀ k s c, slotOf
      { nodes := upd (upd (upd (upd (upd ch.nodes ch.freshNode ⟨none, none, v⟩)
            ch.headId { hn with next := some ch.freshCell })
            ch.freshNode ⟨none, some (ch.freshCell + 1), v⟩)
            ch.freshNode ⟨some (ch.freshCell + 2), some (ch.freshCell + 1), v⟩)
            (firstD L ch.tailId) { fn with prev := some (ch.freshCell + 3) },
        cells := upd (upd (upd (upd ch.cells ch.freshCell ch.freshNode)
            (ch.freshCell + 1) ch.headId)
            (ch.freshCell + 2) (firstD L ch.tailId))
            (ch.freshCell + 3) ch.freshNode,
        headId := ch.headId, tailId := ch.tailId,
        freshNode := ch.freshNode + 1, freshCell := ch.freshCell + 4,
        size := ch.size + 1 } k s = some c →
      (k = firstD L ch.tailId ∧ s = false ∧ c = ch.freshCell + 3) ∨
      (k = ch.freshNode ∧ s = true ∧ c = ch.freshCell + 2) ∨
      (k = ch.freshNode ∧ s = false ∧ c = ch.freshCell + 1) ∨
      (k = ch.headId ∧ s = true ∧ c = ch.freshCell) ∨
      (slotOf ch k s = some c ∧ k ≠ ch.freshNode ∧
        ¬(k = ch.headId ∧ s = true) ∧ ¬(k = firstD L ch.tailId ∧ s = false)) := by
    intro k s c h
    by_cases h1 : k = firstD L ch.tailId
    · subst h1
      cases s
      · left
        refine ⟨rfl, rfl, ?_⟩
        simpa [slotOf, upd, lookupA] using h.symm
      · right; right; right; right
        refine ⟨?_, hne2, ?_, ?_⟩
        · have h' : fn.next = some c := by
            simpa [slotOf, upd, lookupA] using h
          simp [slotOf, hfn, h']
        · intro hcon
          exact hne3 hcon.1
        · intro hcon
          exact absurd hcon.2 (by decide)
    · by_cases h2 : k = ch.freshNode
      · subst h2
        cases s
        · right; right; left
          refine ⟨rfl, rfl, ?_⟩
          simpa [slotOf, upd, lookupA, h1] using h.symm
        · right; left
          refine ⟨rfl, rfl, ?_⟩
          simpa [slotOf, upd, lookupA, h1] using h.symm
      · by_cases h3 : k = ch.headId
        · subst h3
          cases s
          · right; right; right; right
            refine ⟨?_, h2, ?_, ?_⟩
            · have h' : hn.prev = some c := by
                simpa [slotOf, upd, lookupA, h1, h2] using h
              simp [slotOf, hhn, h']
            · intro hcon
              exact absurd hcon.2 (by decide)
            · intro hcon
              exact h1 hcon.1
          · right; right; right; left
            refine ⟨rfl, rfl, ?_⟩
            simpa [slotOf, upd, lookupA, h1, h2] using h.symm
        · right; right; right; right
          refine ⟨?_, h2, fun hcon => absurd hcon.1 h3,
            fun hcon => absurd hcon.1 h1⟩
          simp only [slotOf, upd, lookupA, if_neg h1, if_neg h2, if_neg h3] at h
          simpa only [slotOf] using h
  refine ⟨?_, ?_, ?_, ?_, ?_, ?_, ?_, ?_, ?_⟩
  · refine linked_front (firstD L ch.tailId) ch.freshNode ch.freshCell hslt
      ?_ ?_ ?_ ?_ ?_ ?_ ?_ ?_ ?_ L hlkd rfl ?_ ?_ ?_ ?_
    · rfl
    · exact Nat.ne_of_lt htail_lt
    · intro u hu1 hu2
      by_cases hu3 : u = firstD L ch.tailId
      · subst hu3
        simp [slotOf, upd, lookupA, hu2, hfn]
      · simp [slotOf, upd, lookupA, hu1, hu2, hu3]
    · intro u hu1 hu2
      by_cases hu3 : u = ch.headId
      · subst hu3
        simp [slotOf, upd, lookupA, hu1, hu2, hhn]
      · simp [slotOf, upd, lookupA, hu1, hu2, hu3]
    · simp [slotOf, upd, lookupA, Ne.symm hne3, hne1]
    · simp [slotOf, upd, lookupA, Ne.symm hne2]
    · simp [slotOf, upd, lookupA, Ne.symm hne2]
    · simp [slotOf, upd, lookupA]
    · intro c
      rfl
    · intro hmem
      exact hh_notin (List.mem_append_left _ hmem)
    · intro hmem
      exact absurd (hn_big _ hmem) (by omega)
    · exact htl_notin
    · exact (List.nodup_cons.mp hABt.1).2
  · show (ch.headId :: (ch.freshNode :: L) ++ [ch.tailId]).Nodup
    refine List.nodup_cons.mpr ⟨?_, List.nodup_cons.mpr ⟨?_, ?_⟩⟩
    · intro hmem
      rcases List.mem_cons.mp hmem with he | hmem2
      · exact absurd he (Nat.ne_of_lt hhead_lt)
      · exact hh_notin hmem2
    · intro hmem
      rcases List.mem_append.mp hmem with hm | hm
      · exact absurd (hn_big _ (List.mem_cons_of_mem _ hm)) (by omega)
      · exact absurd (List.mem_singleton.mp hm).symm (Nat.ne_of_lt htail_lt)
    · exact (List.nodup_cons.mp hnodup).2
  · show ch.size + 1 = (ch.freshNode :: L).length
    simp [hsz]
  · refine ⟨{ hn with next := some ch.freshCell }, ?_, hhndp, hhndv⟩
    simp [upd, lookupA, Ne.symm hne3, hne1]
  · by_cases htf : ch.tailId = firstD L ch.tailId
    · rw [← htf] at hfn
      have hfneq : fn = tnd := by
        rw [hfn] at htnd; exact Option.some.inj htnd
      refine ⟨{ fn with prev := some (ch.freshCell + 3) }, ?_, ?_, ?_⟩
      · simp only [upd, lookupA]
        rw [if_pos htf]
      · show fn.next = none
        rw [hfneq]; exact htndn
      · show fn.value = default
        rw [hfneq]; exact htndv
    · refine ⟨tnd, ?_, htndn, htndv⟩
      simp only [upd, lookupA]
      rw [if_neg htf, if_neg (Nat.ne_of_lt htail_lt),
        if_neg (Nat.ne_of_lt htail_lt), if_neg (Ne.symm hht),
        if_neg (Nat.ne_of_lt htail_lt)]
      exact htnd
  · intro k1 s1 k2 s2 c h1 h2
    rcases hslotPF k1 s1 c h1 with
      ⟨hk, hs, hc⟩ | ⟨hk, hs, hc⟩ | ⟨hk, hs, hc⟩ | ⟨hk, hs, hc⟩ |
      ⟨hold, hn1, hl1, ht1⟩ <;>
    rcases hslotPF k2 s2 c h2 with
      ⟨hk2, hs2, hc2⟩ | ⟨hk2, hs2, hc2⟩ | ⟨hk2, hs2, hc2⟩ | ⟨hk2, hs2, hc2⟩ |
      ⟨hold2, hn2, hl2, ht2⟩ <;>
    first
      | exact ⟨hk.trans hk2.symm, hs.trans hs2.symm⟩
      | (exfalso; omega)
      | exact hinj _ _ _ _ _ hold hold2
      | (have hlt := hslt _ _ _ hold2; exfalso; omega)
      | (have hlt := hslt _ _ _ hold; exfalso; omega)
  · intro k s c h
    show c < ch.freshCell + 4
    rcases hslotPF k s c h with
      ⟨_, _, hc⟩ | ⟨_, _, hc⟩ | ⟨_, _, hc⟩ | ⟨_, _, hc⟩ | ⟨hold, _, _, _⟩
    · omega
    · omega
    · omega
    · omega
    · have := hslt _ _ _ hold; omega
  · intro k hk
    show k < ch.freshNode + 1
    by_cases h1 : k = firstD L ch.tailId
    · omega
    · by_cases h2 : k = ch.freshNode
      · omega
      · by_cases h3 : k = ch.headId
        · omega
        · simp only [upd, lookupA, if_neg h1, if_neg h2, if_neg h3] at hk
          have := hnkl k hk
          omega
  · intro c hc
    show c < ch.freshCell + 4
    by_cases e1 : c = ch.freshCell + 3
    · omega
    · by_cases e2 : c = ch.freshCell + 2
      · omega
      · by_cases e3 : c = ch.freshCell + 1
        · omega
        · by_cases e4 : c = ch.freshCell
          · omega
          · simp only [upd, lookupA, if_neg e1, if_neg e2, if_neg e3,
              if_neg e4] at hc
            have := hckl c hc
            omega

/-! ### The empty chain is well formed -/

theorem slotOf_empty [Inhabited α] {k : Nat} {s : Bool} {c : Nat}
    (h : slotOf (emptyChain : Chain α) k s = some c) :
    (k = 0 ∧ s = true ∧ c = 0) ∨ (k = 1 ∧ s = false ∧ c = 1) := by
  by_cases hk1 : k = 1
  · subst hk1
    cases s
    · right
      refine ⟨rfl, rfl, ?_⟩
      simpa [slotOf, emptyChain, lookupA] using h.symm
    · exfalso
      simp [slotOf, emptyChain, lookupA] at h
  · by_cases hk0 : k = 0
    · subst hk0
      cases s
      · exfalso
        simp [slotOf, emptyChain, lookupA] at h
      · left
        refine ⟨rfl, rfl, ?_⟩
        simpa [slotOf, emptyChain, lookupA] using h.symm
    · exfalso
      simp [slotOf, emptyChain, lookupA, hk0, hk1] at h

theorem inv_empty [Inhabited α] : Inv (emptyChain : Chain α) [] := by
  refine ⟨?_, ?_, ?_, ?_, ?_, ?_, ?_, ?_, ?_⟩
  · exact Linked.nil ⟨rfl, rfl⟩
  · exact (by decide : ([0, 1] : List Nat).Nodup)
  · rfl
  · exact ⟨⟨some 0, none, default⟩, rfl, rfl, rfl⟩
  · exact ⟨⟨none, some 1, default⟩, rfl, rfl, rfl⟩
  · intro k1 s1 k2 s2 c h1 h2
    rcases slotOf_empty h1 with ⟨rfl, rfl, rfl⟩ | ⟨rfl, rfl, rfl⟩
    · rcases slotOf_empty h2 with ⟨rfl, rfl, _⟩ | ⟨_, _, hc⟩
      · exact ⟨rfl, rfl⟩
      · exact absurd hc (by decide)
    · rcases slotOf_empty h2 with ⟨_, _, hc⟩ | ⟨rfl, rfl, _⟩
      · exact absurd hc (by decide)
      · exact ⟨rfl, rfl⟩
  · intro k s c h
    rcases slotOf_empty h with ⟨_, _, rfl⟩ | ⟨_, _, rfl⟩ <;>
      norm_num [emptyChain]
  · intro k hk
    by_cases h1 : k = 1
    · subst h1; norm_num [emptyChain]
    · by_cases h0 : k = 0
      · subst h0; norm_num [emptyChain]
      · exfalso; simp [emptyChain, lookupA, h0, h1] at hk
  · intro c hc
    by_cases h1 : c = 1
    · subst h1; norm_num [emptyChain]
    · by_cases h0 : c = 0
      · subst h0; norm_num [emptyChain]
      · exfalso; simp [emptyChain, lookupA, h0, h1] at hc


/-! ### Traversals of a well-formed chain -/

theorem fwdIds_eq [Inhabited α] {ch : Chain α} {L : List Nat}
    (inv : Inv ch L) : fwdIds ch = some L := by
  have h1 : iterNext ch ch.headId = .ok (firstD L ch.tailId) :=
    (linked_first inv.linked).1
  have htl : ch.tailId ∉ L := by
    intro hmem
    exact (List.nodup_append.mp inv.nodup).2.2
      (List.mem_cons_of_mem _ hmem) (List.mem_singleton.mpr rfl)
  have h2 : fwdFrom ch (ch.size + 1) (firstD L ch.tailId) = some L :=
    fwd_seg inv.linked htl (ch.size + 1) (by rw [inv.sizeEq]; omega)
  simp [fwdIds, h1, h2]

theorem bwdIds_eq [Inhabited α] {ch : Chain α} {L : List Nat}
    (inv : Inv ch L) : bwdIds ch = some L.reverse := by
  have h1 : iterPrev ch ch.tailId = .ok (lastD L ch.headId) :=
    (linked_last inv.linked).2
  have hh : ch.headId ∉ L := by
    intro hmem
    exact (List.nodup_cons.mp inv.nodup).1 (List.mem_append_left _ hmem)
  have h2 := bwd_seg inv.linked hh 1
  have h3 : bwdFrom ch 1 ch.headId = some [] := by
    simp [bwdFrom]
  rw [h3] at h2
  simp only [List.append_nil] at h2
  rw [bwdIds, h1, inv.sizeEq]
  exact h2

theorem attachedB_iff [Inhabited α] {ch : Chain α} {L : List Nat} {n : Nat}
    (inv : Inv ch L) : attachedB ch n = true ↔ n ∈ L := by
  rw [attachedB, fwdIds_eq inv]
  simp

theorem valsOf_exists {ch : Chain α} {l : List Nat}
    (h : ∀ i ∈ l, (lookupA ch.nodes i).isSome) :
    ∃ vs, valsOf ch l = some vs := by
  induction l with
  | nil => exact ⟨[], rfl⟩
  | cons i is ih =>
    have hi := h i (List.mem_cons_self i is)
    rcases Option.isSome_iff_exists.mp hi with ⟨nd, hnd⟩
    rcases ih (fun j hj => h j (List.mem_cons_of_mem i hj)) with ⟨vs, hvs⟩
    exact ⟨nd.value :: vs, by simp [valsOf, hnd, hvs]⟩

theorem valsOf_append {ch : Chain α} {l1 l2 : List Nat} {v1 v2 : List α}
    (h1 : valsOf ch l1 = some v1) (h2 : valsOf ch l2 = some v2) :
    valsOf ch (l1 ++ l2) = some (v1 ++ v2) := by
  induction l1 generalizing v1 with
  | nil =>
    simp only [valsOf] at h1
    cases h1
    simpa using h2
  | cons i is ih =>
    simp only [valsOf] at h1
    cases hnd : lookupA ch.nodes i with
    | none => rw [hnd] at h1; cases h1
    | some nd =>
      rw [hnd] at h1
      cases hvs : valsOf ch is with
      | none => rw [hvs] at h1; cases h1
      | some vs =>
        rw [hvs] at h1
        cases h1
        simp only [List.cons_append, valsOf, hnd, List.append_eq, ih hvs]

theorem valsOf_reverse {ch : Chain α} {l : List Nat} {vs : List α}
    (h : valsOf ch l = some vs) : valsOf ch l.reverse = some vs.reverse := by
  induction l generalizing vs with
  | nil =>
    simp only [valsOf] at h
    cases h
    rfl
  | cons i is ih =>
    simp only [valsOf] at h
    cases hnd : lookupA ch.nodes i with
    | none => rw [hnd] at h; cases h
    | some nd =>
      rw [hnd] at h
      cases hvs : valsOf ch is with
      | none => rw [hvs] at h; cases h
      | some rest =>
        rw [hvs] at h
        cases h
        have hone : valsOf ch [i] = some [nd.value] := by simp [valsOf, hnd]
        simpa using valsOf_append (ih hvs) hone

/-! ### Every reachable chain is well formed -/

theorem reachable_inv [Inhabited α] {ch : Chain α} (h : Reachable ch) :
    ∃ L, Inv ch L := by
  induction h with
  | empty => exact ⟨[], inv_empty⟩
  | pushB hr heq ih =>
    rcases ih with ⟨L, inv⟩
    rcases push_back_spec _ inv with ⟨ch2, heq2, inv2, _⟩
    rw [heq] at heq2
    cases heq2
    exact ⟨_, inv2⟩
  | pushF hr heq ih =>
    rcases ih with ⟨L, inv⟩
    rcases push_front_spec _ inv with ⟨ch2, heq2, inv2, _⟩
    rw [heq] at heq2
    cases heq2
    exact ⟨_, inv2⟩
  | eraseS hr hatt heq ih =>
    rcases ih with ⟨L, inv⟩
    have hmem := (attachedB_iff inv).mp hatt
    rcases List.append_of_mem hmem with ⟨L1, L2, rfl⟩
    obtain ⟨ch2, nd, pn, sn, pc, pred, nc, succ, pnc, snc, h01, h02, h03, h04,
      h05, h06, h07, h08, h09, h10, h11, h12, h13, heq2, h15, h16, h17, h18,
      h19, h20, h21, h22, h23, inv2⟩ := erase_spec inv
    rw [heq] at heq2
    cases heq2
    exact ⟨_, inv2⟩


theorem deleteAllLoop_spec [Inhabited α] :
    ∀ (L : List Nat) (ch : Chain α) (fuel : Nat), Inv ch L → L.length < fuel →
      ∃ ch', deleteAllLoop fuel ch (firstD L ch.tailId) = .ok ch' ∧
        Inv ch' [] ∧ ch'.headId = ch.headId ∧ ch'.tailId = ch.tailId := by
  intro L
  induction L with
  | nil =>
    intro ch fuel inv hfuel
    cases fuel with
    | zero => omega
    | succ f =>
      refine ⟨ch, ?_, inv, rfl, rfl⟩
      simp [deleteAllLoop]
  | cons n L2 ih =>
    intro ch fuel inv hfuel
    cases fuel with
    | zero => simp at hfuel
    | succ f =>
      have hne : n ≠ ch.tailId := by
        intro he
        exact (List.nodup_append.mp inv.nodup).2.2
          (List.mem_cons_of_mem _ (List.mem_cons_self n L2))
          (List.mem_singleton.mpr he)
      obtain ⟨ch2, nd, pn, sn, pc, pred, nc, succ, pnc, snc, h01, h02, h03,
        h04, h05, h06, h07, h08, h09, h10, h11, h12, h13, heq2, h15, h16, h17,
        h18, h19, h20, h21, h22, h23, inv2⟩ :=
        erase_spec (show Inv ch ([] ++ n :: L2) from inv)
      subst h02
      have htt : ch2.tailId = ch.tailId := by rw [h15]
      have hinv2 : Inv ch2 L2 := by simpa using inv2
      rcases ih ch2 f hinv2 (by simp at hfuel; omega) with
        ⟨ch3, hl3, hi3, hh3, ht3⟩
      refine ⟨ch3, ?_, hi3, by rw [hh3, h15], by rw [ht3, h15]⟩
      rw [firstD_cons]
      simp only [deleteAllLoop, if_neg hne, heq2]
      rw [htt] at hl3
      exact hl3

theorem push_back_ok [Inhabited α] {ch : Chain α} (h : Reachable ch) (v : α) :
    ∃ ch', push_back ch v = .ok ch' := by
  rcases reachable_inv h with ⟨L, inv⟩
  rcases push_back_spec v inv with ⟨ch', heq, _⟩
  exact ⟨ch', heq⟩


theorem reachable_chainOf [Inhabited α] (l : List α) :
    Reachable (chainOf l) := by
  suffices h : ∀ ch : Chain α, Reachable ch → Reachable (l.foldl pushD ch) by
    exact h emptyChain Reachable.empty
  induction l with
  | nil => intro ch hr; exact hr
  | cons v vs ih =>
    intro ch hr
    rcases push_back_ok hr v with ⟨ch', heq⟩
    have hstep : pushD ch v = ch' := by simp [pushD, heq]
    simpa [List.foldl_cons, hstep] using ih ch' (Reachable.pushB hr heq)


/-! ### The claims -/


/-- C1, counterexample: erasing at a sentinel cursor does not signal
invalid-operation.  On the default-constructed chain the cursor at the tail
sentinel (node id 1) makes `erase` dereference the sentinel's null forward
cell, a null dereference, and the cursor at the head sentinel (node id 0)
its null backward cell; neither is an invalid-operation rejection. -/
theorem claim_c1_counterexample :
    erase (emptyChain : Chain String) 1 = .error Err.nullDeref ∧
    erase (emptyChain : Chain String) 1 ≠ .error Err.invalidOperation ∧
    erase (emptyChain : Chain String) 0 ≠ .error Err.invalidOperation := by
  refine ⟨rfl, fun h => ?_, fun h => ?_⟩
  · exact Err.noConfusion (Except.error.inj ((rfl :
      erase (emptyChain : Chain String) 1 = .error Err.nullDeref).symm.trans h))
  · exact Err.noConfusion (Except.error.inj ((rfl :
      erase (emptyChain : Chain String) 0 = .error Err.nullDeref).symm.trans h))

/-- C1, amended: `erase` performs no sentinel check.  Called on a cursor at
either sentinel of any reachable chain it dereferences the sentinel's
missing link cell (`head_` has no backward cell and `tail_` has no forward
cell, both are null `shared_ptr`s), so the call is a null dereference —
undefined behavior in the C++ — rather than an invalid-operation rejection;
the failure happens before either relink write, so no updated state is
produced. -/
theorem claim_c1_amended {α : Type} [Inhabited α] (ch : Chain α)
    (h : Reachable ch) :
    erase ch ch.headId = .error Err.nullDeref ∧
    erase ch ch.tailId = .error Err.nullDeref := by
  rcases reachable_inv h with ⟨L, inv⟩
  obtain ⟨hn, hhn, hhp, _⟩ := inv.headNode
  obtain ⟨tn, htn, htnx, _⟩ := inv.tailNode
  constructor
  · simp [erase, hhn, hhp]
  · have hadj := linked_last inv.linked
    rcases iterPrev_ok_iff.mp hadj.2 with ⟨tpc, htpcs, htpcv⟩
    rcases slotOf_false_iff.mp htpcs with ⟨tn2, htn2, htn2p⟩
    have he : tn2 = tn := by rw [htn] at htn2; exact (Option.some.inj htn2).symm
    subst he
    simp [erase, htn, htn2p, htpcv, htnx]

/-- C1, witness: the amended statement evaluated on the default-constructed
chain. -/
theorem claim_c1_witness :
    erase (emptyChain : Chain String) (emptyChain : Chain String).headId =
      .error Err.nullDeref ∧
    erase (emptyChain : Chain String) (emptyChain : Chain String).tailId =
      .error Err.nullDeref :=
  claim_c1_amended _ Reachable.empty

/-- C2: for every reachable chain and every cursor at an attached ordinary
node, `erase` performs exactly the two in-place cell writes, leaves the
erased node's own cells targeting its former neighbors, decrements `size_`
by one and returns a cursor at the successor. -/
theorem claim_c2 {α : Type} [Inhabited α] (ch : Chain α) (n : Nat)
    (hr : Reachable ch) (ha : attachedB ch n = true) : C2Post ch n := by
  rcases reachable_inv hr with ⟨L, inv⟩
  have hmem := (attachedB_iff inv).mp ha
  rcases List.append_of_mem hmem with ⟨L1, L2, rfl⟩
  have hsize : ch.size = (L1 ++ n :: L2).length := inv.sizeEq
  obtain ⟨ch2, nd, pn, sn, pc, pred, nc, succ, pnc, snc, h01, h02, h03, h04,
    h05, h06, h07, h08, h09, h10, h11, h12, h13, h14, h15, h16, h17, h18,
    h19, h20, h21, h22, h23, inv2⟩ := erase_spec inv
  subst h15
  refine ⟨_, pred, succ, pnc, snc, nc, pc, h14, ?_, ?_, ?_, ?_, h12, h13,
    ?_, ?_, h16, h22, h21, ?_, rfl, ?_, ?_, ?_, ?_, ?_, ?_, ?_⟩
  · exact iterPrev_of (slotOf_false_iff.mpr ⟨nd, h03, h04⟩) h06
  · exact iterNext_of (slotOf_true_iff.mpr ⟨nd, h03, h05⟩) h07
  · exact slotOf_true_iff.mpr ⟨pn, h08, h09⟩
  · exact slotOf_false_iff.mpr ⟨sn, h10, h11⟩
  · simp [upd, lookupA, h16]
  · simp [upd, lookupA]
  · intro c hc1 hc2
    simp [upd, lookupA, hc1, hc2]
  · exact slotOf_true_iff.mpr ⟨nd, h03, h05⟩
  · exact slotOf_false_iff.mpr ⟨nd, h03, h04⟩
  · exact slotOf_true_iff.mpr ⟨nd, h03, h05⟩
  · exact slotOf_false_iff.mpr ⟨nd, h03, h04⟩
  · simp [upd, lookupA, h17, h18, h07]
  · simp [upd, lookupA, h19, h20, h06]
  · show ch.size - 1 + 1 = ch.size
    rw [hsize]
    simp only [List.length_append, List.length_cons]
    omega

/-- C2, witness: the chain built from the three demo strings, erasing its
middle node (node id 3, holding "data2!"). -/
theorem claim_c2_witness :
    attachedB (chainOf ["data1!", "data2!", "data3!"]) 3 = true ∧
    C2Post (chainOf ["data1!", "data2!", "data3!"]) 3 :=
  ⟨by decide, claim_c2 _ 3 (reachable_chainOf _) (by decide)⟩

/-- C3: the demo scenario.  Building the chain ["data1!", "data2!",
"data3!"] and forward-iterating while erasing the node whose value is
"data1!" visits exactly "data1!", "data2!", "data3!" in that order; the
remaining forward value sequence is ["data2!", "data3!"] and the subsequent
reverse traversal yields ["data3!", "data2!"].  In particular `begin()` is
the node with id 2 holding "data1!", and after erasing it the cursor still
parked there advances to node 3 (the former successor, holding "data2!"),
because the erased node's own cells were never mutated. -/
theorem claim_c3 :
    demoRun.map (fun p => p.2) = .ok ["data1!", "data2!", "data3!"] ∧
    (match demoRun with
      | .ok (c, _) => fwdVals c
      | .error _ => none) = some ["data2!", "data3!"] ∧
    (match demoRun with
      | .ok (c, _) => bwdVals c
      | .error _ => none) = some ["data3!", "data2!"] ∧
    iterNext demoChain demoChain.headId = .ok 2 ∧
    iterDeref demoChain 2 = .ok "data1!" ∧
    (match erase demoChain 2 with
      | .ok (c, _) => iterNext c 2
      | .error e => .error e) = .ok 3 ∧
    iterDeref demoChain 3 = .ok "data2!" :=
  ⟨rfl, rfl, rfl, rfl, rfl, rfl, rfl⟩

/-- C4: for every reachable chain, a second cursor parked at the immediate
predecessor of a node that a first cursor then erases lands, on its next
advance, on the erased node's former successor, and its further traversal
never visits the erased node. -/
theorem claim_c4 {α : Type} [Inhabited α] (ch : Chain α) (n p : Nat)
    (hr : Reachable ch) (ha : attachedB ch n = true)
    (hp : iterPrev ch n = .ok p) : C4Post ch n p := by
  rcases reachable_inv hr with ⟨L, inv⟩
  have hmem := (attachedB_iff inv).mp ha
  rcases List.append_of_mem hmem with ⟨L1, L2, rfl⟩
  have hnodup := inv.nodup
  obtain ⟨ch2, nd, pn, sn, pc, pred, nc, succ, pnc, snc, h01, h02, h03, h04,
    h05, h06, h07, h08, h09, h10, h11, h12, h13, h14, h15, h16, h17, h18,
    h19, h20, h21, h22, h23, inv2⟩ := erase_spec inv
  have hpprev : iterPrev ch n = .ok pred :=
    iterPrev_of (slotOf_false_iff.mpr ⟨nd, h03, h04⟩) h06
  rw [hpprev] at hp
  have hppred : p = pred := (Except.ok.inj hp).symm
  subst hppred
  refine ⟨ch2, succ, h14, ?_, fun he => h22 he.symm, ?_, L2, ?_, ?_⟩
  · exact iterNext_of (slotOf_true_iff.mpr ⟨nd, h03, h05⟩) h07
  · refine iterNext_of (c := pnc) ?_ ?_
    · rw [h15]
      exact slotOf_true_iff.mpr ⟨pn, h08, h09⟩
    · rw [h15]
      simp [upd, lookupA, h16]
  · have hlk2 : Linked ch2 ch2.headId (L1 ++ L2) := inv2.linked
    have hsuf : Linked ch2 (lastD L1 ch2.headId) L2 := linked_suffix hlk2
    have htl2 : ch2.tailId ∉ L2 := by
      intro hc
      exact (List.nodup_append.mp inv2.nodup).2.2
        (List.mem_cons_of_mem _ (List.mem_append_right _ hc))
        (List.mem_singleton.mpr rfl)
    have hfirst : firstD L2 ch2.tailId = succ := by
      rw [h02, h15]
    have hlen : L2.length < ch2.size + 1 := by
      have := inv2.sizeEq
      simp only [List.length_append] at this
      omega
    rw [← hfirst]
    exact fwd_seg hsuf htl2 (ch2.size + 1) hlen
  · have hB : (n :: L2).Nodup :=
      (nodup_split3 (A := ch.headId :: L1) (B := n :: L2)
        (C := [ch.tailId]) hnodup).2.1
    exact (List.nodup_cons.mp hB).1

/-- C4, witness: the demo chain, erasing its middle node (id 3) while a
second cursor is parked at its predecessor (id 2). -/
theorem claim_c4_witness :
    attachedB (chainOf ["data1!", "data2!", "data3!"]) 3 = true ∧
    iterPrev (chainOf ["data1!", "data2!", "data3!"]) 3 = .ok 2 ∧
    C4Post (chainOf ["data1!", "data2!", "data3!"]) 3 2 :=
  ⟨by decide, rfl,
    claim_c4 _ 3 2 (reachable_chainOf _) (by decide) rfl⟩

/-- C5: for every reachable chain, `size()` equals the number of ordinary
nodes visited by the forward traversal from the head sentinel, and also the
number visited by the backward traversal from the tail sentinel. -/
theorem claim_c5 {α : Type} [Inhabited α] (ch : Chain α)
    (hr : Reachable ch) :
    ∃ lf lb, fwdIds ch = some lf ∧ bwdIds ch = some lb ∧
      lf.length = ch.size ∧ lb.length = ch.size := by
  rcases reachable_inv hr with ⟨L, inv⟩
  exact ⟨L, L.reverse, fwdIds_eq inv, bwdIds_eq inv, inv.sizeEq.symm,
    by simp [inv.sizeEq]⟩

/-- C5, witness: the three-element demo chain. -/
theorem claim_c5_witness :
    ∃ lf lb, fwdIds (chainOf ["data1!", "data2!", "data3!"]) = some lf ∧
      bwdIds (chainOf ["data1!", "data2!", "data3!"]) = some lb ∧
      lf.length = (chainOf ["data1!", "data2!", "data3!"]).size ∧
      lb.length = (chainOf ["data1!", "data2!", "data3!"]).size :=
  claim_c5 _ (reachable_chainOf _)

/-- C6: for every reachable chain, the backward traversal yields exactly the
reverse of the forward traversal, on node ids and on values, and every
attached ordinary node is doubly linked: its forward successor's backward
cell dereferences back to it and its backward predecessor's forward cell
dereferences back to it. -/
theorem claim_c6 {α : Type} [Inhabited α] (ch : Chain α)
    (hr : Reachable ch) :
    ∃ l vs, fwdIds ch = some l ∧ valsOf ch l = some vs ∧
      bwdIds ch = some l.reverse ∧ valsOf ch l.reverse = some vs.reverse ∧
      ∀ x ∈ l, ∃ y p, iterNext ch x = .ok y ∧ iterPrev ch y = .ok x ∧
        iterPrev ch x = .ok p ∧ iterNext ch p = .ok x := by
  rcases reachable_inv hr with ⟨L, inv⟩
  have hsome := linked_nodes_isSome inv.linked
  have hall : ∀ i ∈ L, (lookupA ch.nodes i).isSome := fun i hi => hsome i
    (List.mem_append_left _ (List.mem_cons_of_mem _ hi))
  rcases valsOf_exists hall with ⟨vs, hvs⟩
  exact ⟨L, vs, fwdIds_eq inv, hvs, bwdIds_eq inv, valsOf_reverse hvs,
    linked_pairs inv.linked⟩

/-- C6, witness: the three-element demo chain. -/
theorem claim_c6_witness :
    ∃ l vs, fwdIds (chainOf ["data1!", "data2!", "data3!"]) = some l ∧
      valsOf (chainOf ["data1!", "data2!", "data3!"]) l = some vs ∧
      bwdIds (chainOf ["data1!", "data2!", "data3!"]) = some l.reverse ∧
      valsOf (chainOf ["data1!", "data2!", "data3!"]) l.reverse =
        some vs.reverse ∧
      ∀ x ∈ l, ∃ y p,
        iterNext (chainOf ["data1!", "data2!", "data3!"]) x = .ok y ∧
        iterPrev (chainOf ["data1!", "data2!", "data3!"]) y = .ok x ∧
        iterPrev (chainOf ["data1!", "data2!", "data3!"]) x = .ok p ∧
        iterNext (chainOf ["data1!", "data2!", "data3!"]) p = .ok x :=
  claim_c6 _ (reachable_chainOf _)

/-- C7: erasing every element during a single forward traversal terminates
with `size() = 0` and the two sentinels linked directly to each other
(`head_`'s forward cell dereferences to `tail_` and `tail_`'s backward cell
to `head_`). -/
theorem claim_c7 {α : Type} [Inhabited α] (ch : Chain α)
    (hr : Reachable ch) :
    ∃ ch', deleteAll ch = .ok ch' ∧ ch'.size = 0 ∧
      iterNext ch' ch'.headId = .ok ch'.tailId ∧
      iterPrev ch' ch'.tailId = .ok ch'.headId := by
  rcases reachable_inv hr with ⟨L, inv⟩
  have h1 : iterNext ch ch.headId = .ok (firstD L ch.tailId) :=
    (linked_first inv.linked).1
  rcases deleteAllLoop_spec L ch (ch.size + 1) inv
    (by rw [inv.sizeEq]; omega) with ⟨ch', hl, hi, hh, ht⟩
  refine ⟨ch', ?_, by simpa using hi.sizeEq, ?_, ?_⟩
  · rw [deleteAll, h1]
    exact hl
  · have h2 := (linked_first hi.linked).1
    simpa using h2
  · have h2 := (linked_first hi.linked).2
    simpa using h2

/-- C7, witness: the three-element demo chain. -/
theorem claim_c7_witness :
    ∃ ch', deleteAll (chainOf ["data1!", "data2!", "data3!"]) = .ok ch' ∧
      ch'.size = 0 ∧ iterNext ch' ch'.headId = .ok ch'.tailId ∧
      iterPrev ch' ch'.tailId = .ok ch'.headId :=
  claim_c7 _ (reachable_chainOf _)

/-- C8, counterexample: on the empty chain, `front()` and `back()` silently
return the tail resp. head sentinel's default-constructed value, and
dereferencing a cursor parked at the tail sentinel (node id 1) likewise
silently returns the default-constructed value; none of them fails with
invalid-state. -/
theorem claim_c8_counterexample :
    front (emptyChain : Chain String) = .ok "" ∧
    back (emptyChain : Chain String) = .ok "" ∧
    iterDeref (emptyChain : Chain String) 1 = .ok "" ∧
    front (emptyChain : Chain String) ≠ .error Err.invalidState ∧
    iterDeref (emptyChain : Chain String) 1 ≠ .error Err.invalidState := by
  refine ⟨rfl, rfl, rfl, fun h => ?_, fun h => ?_⟩
  · exact Except.noConfusion ((rfl :
      front (emptyChain : Chain String) = .ok "").symm.trans h)
  · exact Except.noConfusion ((rfl :
      iterDeref (emptyChain : Chain String) 1 = .ok "").symm.trans h)

/-- C8, amended: there is no sentinel or emptiness check.  Dereferencing a
cursor at a sentinel of any reachable chain — empty or not — returns the
sentinel's default-constructed value, and on every reachable empty chain
`front()` and `back()` return the tail resp. head sentinel's
default-constructed value instead of failing; no invalid-state error is
signalled. -/
theorem claim_c8_amended {α : Type} [Inhabited α] (ch : Chain α)
    (hr : Reachable ch) :
    iterDeref ch ch.headId = .ok (default : α) ∧
    iterDeref ch ch.tailId = .ok (default : α) ∧
    (ch.size = 0 →
      front ch = .ok (default : α) ∧ back ch = .ok (default : α)) := by
  rcases reachable_inv hr with ⟨L, inv⟩
  obtain ⟨hnd, hh, hhp, hhv⟩ := inv.headNode
  obtain ⟨tnd, htl, htn, htv⟩ := inv.tailNode
  refine ⟨by simp [iterDeref, hh, hhv], by simp [iterDeref, htl, htv], ?_⟩
  intro hsz
  have hL : L = [] := by
    have h := inv.sizeEq
    rw [hsz] at h
    exact List.length_eq_zero.mp h.symm
  subst hL
  have hadj : adjR ch ch.headId ch.tailId := by
    have h := linked_first inv.linked
    simpa using h
  rcases iterNext_ok_iff.mp hadj.1 with ⟨c1, hc1, hc1v⟩
  rcases slotOf_true_iff.mp hc1 with ⟨hnd2, hh2, hh2n⟩
  have he : hnd2 = hnd := by rw [hh] at hh2; exact (Option.some.inj hh2).symm
  subst he
  rcases iterPrev_ok_iff.mp hadj.2 with ⟨c2, hc2, hc2v⟩
  rcases slotOf_false_iff.mp hc2 with ⟨tnd2, htl2, htl2p⟩
  have he2 : tnd2 = tnd := by rw [htl] at htl2; exact (Option.some.inj htl2).symm
  subst he2
  constructor
  · simp [front, hh, hh2n, hc1v, htl, htv]
  · simp [back, htl, htl2p, hc2v, hh, hhv]

/-- C8, witness: the amended statement evaluated on the nonempty
three-element demo chain (sentinel dereference mid-iteration, e.g. at
`end()`) and on the default-constructed empty chain (where the `front()` and
`back()` conjuncts are substantive). -/
theorem claim_c8_witness :
    (iterDeref (chainOf ["data1!", "data2!", "data3!"])
        (chainOf ["data1!", "data2!", "data3!"]).headId =
        .ok (default : String) ∧
      iterDeref (chainOf ["data1!", "data2!", "data3!"])
        (chainOf ["data1!", "data2!", "data3!"]).tailId =
        .ok (default : String) ∧
      ((chainOf ["data1!", "data2!", "data3!"]).size = 0 →
        front (chainOf ["data1!", "data2!", "data3!"]) =
          .ok (default : String) ∧
        back (chainOf ["data1!", "data2!", "data3!"]) =
          .ok (default : String))) ∧
    (iterDeref (emptyChain : Chain String)
        (emptyChain : Chain String).headId = .ok (default : String) ∧
      iterDeref (emptyChain : Chain String)
        (emptyChain : Chain String).tailId = .ok (default : String) ∧
      ((emptyChain : Chain String).size = 0 →
        front (emptyChain : Chain String) = .ok (default : String) ∧
        back (emptyChain : Chain String) = .ok (default : String))) :=
  ⟨claim_c8_amended _ (reachable_chainOf _), claim_c8_amended _ Reachable.empty⟩

/-- C9: insertion at the back does not mutate the former last node's
existing forward cell in place: `link` installs a brand-new forward cell on
the former last node (targeting the new node) and a brand-new backward cell
on the tail sentinel, while the old forward cell keeps its old content (the
tail sentinel) — a holder of the old cell object no longer observes the
updated chain. -/
theorem claim_c9 {α : Type} [Inhabited α] (ch : Chain α) (v : α)
    (hr : Reachable ch) : C9Post ch v := by
  rcases reachable_inv hr with ⟨L, inv⟩
  have hadj := linked_last inv.linked
  rcases iterNext_ok_iff.mp hadj.1 with ⟨oc, hoc, hocv⟩
  rcases iterPrev_ok_iff.mp hadj.2 with ⟨tc, htc, htcv⟩
  have hoc_lt : oc < ch.freshCell := inv.slotLt _ _ _ hoc
  have htc_lt : tc < ch.freshCell := inv.slotLt _ _ _ htc
  have htail_lt : ch.tailId < ch.freshNode := by
    rcases slotOf_false_iff.mp htc with ⟨tn, htn, _⟩
    exact inv.nodeKeyLt _ (by simp [htn])
  rcases push_back_spec v inv with ⟨ch', heq, inv', hh, ht, hfn, hsz,
    hs1, hs2, hs3, hs4, hframe⟩
  refine ⟨lastD L ch.headId, oc, ch', ch.freshCell, tc, ch.freshCell + 3,
    hadj.2, hoc, hocv, heq, hs1, by omega, hs2, ?_, Nat.ne_of_lt htail_lt,
    htc, hs3, by omega⟩
  rw [hframe oc hoc_lt]
  exact hocv

/-- C9, witness: pushing a fourth value onto the three-element demo chain. -/
theorem claim_c9_witness :
    C9Post (chainOf ["data1!", "data2!", "data3!"]) "data4!" :=
  claim_c9 _ "data4!" (reachable_chainOf _)

/-- C10: on an empty chain (`size_ == 0`), `pop_back` and `pop_front` are
no-ops: the guard `if (!empty())` fails and the chain is returned
unchanged, so the size and the sentinel linkage are exactly as before. -/
theorem claim_c10 {α : Type} (ch : Chain α) (h : ch.size = 0) :
    pop_back ch = .ok ch ∧ pop_front ch = .ok ch := by
  constructor <;> simp [pop_back, pop_front, h]

/-- C10, witness: the default-constructed chain of strings. -/
theorem claim_c10_witness :
    pop_back (emptyChain : Chain String) = .ok (emptyChain : Chain String) ∧
    pop_front (emptyChain : Chain String) = .ok (emptyChain : Chain String) :=
  claim_c10 _ rfl

end MChain
